import Mathlib

/-!
Verification of the recognition-and-normalization kernel of the port
data-donation framework: archive fingerprint classification
(`port/validate.py`), recursive structural flattening of JSON
(`dict_denester` in `port/helpers.py`), least-nested path lookup
(`find_items` in `port/helpers.py`) and timestamp classification and
conversion (`is_epoch` / `epoch_to_iso` in `port/helpers.py` and
`port/parserlib/stringparse.py`).

Python strings are embedded as lists of characters (`PStr`); Python dicts
as insertion-ordered association lists with the Python `dict.update`
semantics (replace in place on an existing key, append otherwise).
-/

/-- A Python string, embedded as its sequence of characters. -/
abbrev PStr := List Char

/-- A JSON leaf scalar as it appears in a decoded document: string, integer,
boolean or null.  (Non-integral JSON numbers do not occur in any property
verified here.) -/
inductive Prim where
  | s (v : PStr)
  | i (v : Int)
  | b (v : Bool)
  | null
deriving DecidableEq

/-- Decimal digits of a natural number, structurally recursive on a fuel
bound so that it evaluates in the kernel; `natChars` below instantiates the
fuel.  Mirrors Python `str` on a non-negative int. -/
def natCharsAux : Nat → Nat → List Char
  | 0, _ => []
  | fuel + 1, n =>
      if n < 10 then [Char.ofNat (48 + n)]
      else natCharsAux fuel (n / 10) ++ [Char.ofNat (48 + n % 10)]

/-- Decimal rendering of a natural number, as Python `str` produces it. -/
def natChars (n : Nat) : List Char := natCharsAux (n + 1) n

/-- Decimal rendering of an integer, as Python `str` produces it. -/
def intChars (n : Int) : PStr :=
  if n < 0 then '-' :: natChars n.natAbs else natChars n.toNat

/-- Python `str()` applied to a stored leaf value: strings unchanged,
integers in decimal, booleans as `True` / `False`, `None` for null. -/
def pyStr : Prim → PStr
  | .s v => v
  | .i n => intChars n
  | .b true => ['T', 'r', 'u', 'e']
  | .b false => ['F', 'a', 'l', 's', 'e']
  | .null => ['N', 'o', 'n', 'e']

/-- Python `d.update(\x7bk: v\x7d)` on an insertion-ordered dict: if the key is
present its value is replaced in place, otherwise the pair is appended. -/
def pyAssocUpdate {α β : Type} [DecidableEq α]
    (d : List (α × β)) (k : α) (v : β) : List (α × β) :=
  if d.any (fun p => decide (p.1 = k)) then
    d.map (fun p => if p.1 = k then (k, v) else p)
  else d ++ [(k, v)]

/-- A decoded JSON value tree: nested objects (insertion-ordered key/value
lists), arrays, and scalar leaves. -/
inductive J where
  | leaf (p : Prim)
  | obj (kvs : List (PStr × J))
  | arr (items : List J)

mutual
/-- `dict_denester` from `port/helpers.py`: flattens a JSON tree into a
dict keyed by the '-'-joined path, threading the accumulator dict `new`
and the accumulated `name` string exactly as the Python recursion does
(the emitted key drops the leading separator via `newname[1:]`).
`port/ddpinspect/scanfiles.py` carries the same function with separator
'_' in place of '-'; its behaviour is identical up to that character. -/
def dict_denester : J → List (PStr × Prim) → PStr → List (PStr × Prim)
  | .obj kvs, new, name => denestObj kvs new name
  | .arr items, new, name => denestArr items 0 new name
  | .leaf p, new, name => pyAssocUpdate new (name.drop 1) p

/-- The dict branch of `dict_denester`: scalar values are written directly
under the extended name, nested dicts and lists recurse. -/
def denestObj : List (PStr × J) → List (PStr × Prim) → PStr → List (PStr × Prim)
  | [], new, _ => new
  | (k, .leaf p) :: rest, new, name =>
      denestObj rest (pyAssocUpdate new ((name ++ '-' :: k).drop 1) p) name
  | (k, v) :: rest, new, name =>
      denestObj rest (dict_denester v new (name ++ '-' :: k)) name

/-- The list branch of `dict_denester`: each element recurses with the name
extended by its decimal index. -/
def denestArr : List J → Nat → List (PStr × Prim) → PStr → List (PStr × Prim)
  | [], _, new, _ => new
  | item :: rest, i, new, name =>
      denestArr rest (i + 1) (dict_denester item new (name ++ '-' :: natChars i)) name
end

/-- Top-level call of `dict_denester` (`run_first=True`: fresh dict, empty
name). -/
def denestTop (j : J) : List (PStr × Prim) := dict_denester j [] []

mutual
/-- Specification-side view of a JSON tree: the list of its scalar leaves
in traversal order, each with the sequence of keys/indices leading to it
from the root.  This is the `FlatRecord` of the specification, with `Path`
kept as a structured segment list. -/
def leafPaths : J → List (List PStr × Prim)
  | .leaf p => [([], p)]
  | .obj kvs => lpObj kvs
  | .arr items => lpArr items 0

/-- Leaves of an object's children, paths extended by the child key. -/
def lpObj : List (PStr × J) → List (List PStr × Prim)
  | [] => []
  | (k, v) :: rest => (leafPaths v).map (fun e => (k :: e.1, e.2)) ++ lpObj rest

/-- Leaves of an array's elements, paths extended by the decimal index. -/
def lpArr : List J → Nat → List (List PStr × Prim)
  | [], _ => []
  | x :: rest, i => (leafPaths x).map (fun e => (natChars i :: e.1, e.2)) ++ lpArr rest (i + 1)
end

/-- The flat key `dict_denester` derives from a path: segments joined by
'-' (the leading separator produced by the name accumulation is dropped). -/
def pathKey (q : List PStr) : PStr := (q.flatMap (fun s => '-' :: s)).drop 1

/-- The name accumulator value at a node reached through path `p`. -/
def nameOf (p : List PStr) : PStr := p.flatMap (fun s => '-' :: s)

mutual
/-- Keys are well-behaved for flattening: within every object the key list
is duplicate-free and no key contains the separator '-'. -/
def goodKeys : J → Bool
  | .leaf _ => true
  | .obj kvs => decide ((kvs.map (·.1)).Nodup) && gkObj kvs
  | .arr items => gkArr items

/-- `goodKeys` over an object's children. -/
def gkObj : List (PStr × J) → Bool
  | [] => true
  | (k, v) :: rest => !k.contains '-' && goodKeys v && gkObj rest

/-- `goodKeys` over an array's elements. -/
def gkArr : List J → Bool
  | [] => true
  | x :: rest => goodKeys x && gkArr rest
end

/-! ## Path lookup: `find_items` from `port/helpers.py` -/

/-- Number of occurrences of the separator '-' in a flat key: the depth
measure `k.count("-")` that `find_items` uses. -/
def countSep (k : PStr) : Nat := k.count '-'

/-- Characters free of the newline the Python regex '.' refuses to cross. -/
def nlFree (s : PStr) : Bool := s.all (fun c => c != '\n')

/-- Does the token, read as a Python regex made of literal characters and
the '.' wildcard, match this exact character sequence?  ('.' matches any
character other than a newline; every other character matches itself.)
This is the fragment of Python regex syntax exercised by the theorems
below; other metacharacters are outside the embedding. -/
def tokMatch : PStr → PStr → Bool
  | [], [] => true
  | [], _ :: _ => false
  | _ :: _, [] => false
  | c :: tr, x :: xr => (if c = '.' then x != '\n' else c == x) && tokMatch tr xr

/-- Python `$`: the remainder after the match of `.*$` must be empty or a
single trailing newline, with `.*` consuming only non-newline characters. -/
def tailOk (s : PStr) : Bool :=
  nlFree s || (s.getLast? == some '\n' && nlFree s.dropLast)

/-- `re.match(f"^.*TOKEN.*$", k) is not None`, for tokens within the
modelled regex fragment: some decomposition of `k` places a
`tokMatch`-matched slice after a newline-free prefix with an admissible
tail. -/
def matchesTok (tok k : PStr) : Bool :=
  (List.range (k.length + 1)).any fun i =>
    nlFree (k.take i) &&
      ((List.range (k.length - i + 1)).any fun m =>
        tokMatch tok ((k.drop i).take m) && tailOk ((k.drop i).drop m))

/-- Is a candidate depth strictly below the current best (which starts at
`math.inf`, modelled as `none`)? -/
def ltDepth (n : Nat) : Option Nat → Bool
  | none => true
  | some m => decide (n < m)

/-- The scanning loop of `find_items`: walk the denested dict in order,
keeping the stringified value of the match with the strictly smallest
separator count seen so far. -/
def findFrom : List (PStr × Prim) → PStr → PStr → Option Nat → PStr
  | [], _, out, _ => out
  | (k, v) :: rest, tok, out, depth =>
      if matchesTok tok k && ltDepth (countSep k) depth then
        findFrom rest tok (pyStr v) (some (countSep k))
      else
        findFrom rest tok out depth

/-- `find_items` from `port/helpers.py`: return the stringified value of
the least-nested key matching `key_to_match` (matching via the regex
`^.*key_to_match.*$`, depth via the count of '-' characters), or the
empty string when nothing matches. -/
def find_items (d : List (PStr × Prim)) (key_to_match : PStr) : PStr :=
  findFrom d key_to_match [] none

/-! ## Timestamps: `is_epoch` and `epoch_to_iso` -/

/-- A Python `int | str` input value. -/
inductive IS where
  | i (n : Int)
  | s (t : PStr)

/-- Python `str()` of an `int | str` value. -/
def strIS : IS → PStr
  | .i n => intChars n
  | .s t => t

/-- Characters Python `int()` strips from both ends of a string. -/
def isPySpace (c : Char) : Bool :=
  c == ' ' || c == '\t' || c == '\n' || c == '\r' || c == '\x0b' || c == '\x0c'

/-- Value of a nonempty all-digit character sequence. -/
def digitsVal (ds : PStr) : Option Nat :=
  if ds ≠ [] ∧ ds.all (·.isDigit) then
    some (ds.foldl (fun a c => 10 * a + (c.toNat - 48)) 0)
  else none

/-- Python `int(s)` on a string: surrounding whitespace stripped, an
optional sign followed by at least one decimal digit; `none` models the
`ValueError` raised on anything else.  (Underscore digit grouping and
non-ASCII digits are outside the modelled fragment; no theorem relies on
them.) -/
def pyIntOfStr (t : PStr) : Option Int :=
  let u := ((t.dropWhile isPySpace).reverse.dropWhile isPySpace).reverse
  match u with
  | '-' :: ds => (digitsVal ds).map (fun n => -(n : Int))
  | '+' :: ds => (digitsVal ds).map (fun n => (n : Int))
  | ds => (digitsVal ds).map (fun n => (n : Int))

/-- Python `int()` on an `int | str` value. -/
def toPyInt : IS → Option Int
  | .i n => some n
  | .s t => pyIntOfStr t

/-- `is_epoch` from `port/helpers.py` (the identical function also lives in
`port/parserlib/stringparse.py`): the first `check_minimum` values must all
convert to ints inside the inclusive window year-2000 .. year-2040
(946684800 .. 2208988800); any conversion failure is caught and yields
`False`. -/
def is_epoch (l : List IS) (check_minimum : Nat) : Bool :=
  (l.take check_minimum).all fun v =>
    match toPyInt v with
    | some t => decide (946684800 ≤ t) && decide (t ≤ 2208988800)
    | none => false

/-- Civil date from days since 1970-01-01 (Howard Hinnant's algorithm, as
used by the proleptic-Gregorian arithmetic inside Python `datetime`). -/
def civilFromDays (z0 : Int) : Int × Nat × Nat :=
  let z := z0 + 719468
  let era : Int := Int.fdiv z 146097
  let doe : Nat := (z - era * 146097).toNat
  let yoe : Nat := (doe - doe / 1460 + doe / 36524 - doe / 146096) / 365
  let doy : Nat := doe - (365 * yoe + yoe / 4 - yoe / 100)
  let mp : Nat := (5 * doy + 2) / 153
  let d : Nat := doy - (153 * mp + 2) / 5 + 1
  let m : Nat := if mp < 10 then mp + 3 else mp - 9
  (era * 400 + (yoe : Int) + (if m ≤ 2 then 1 else 0), m, d)

/-- Zero-padded decimal field of width `w`. -/
def padDec (w n : Nat) : PStr :=
  List.replicate (w - (natChars n).length) '0' ++ natChars n

/-- The ISO-8601 string `datetime.fromtimestamp(t, tz=timezone.utc).isoformat()`
produces for an in-range integer epoch `t`. -/
def isoFromEpoch (t : Int) : PStr :=
  let days := Int.fdiv t 86400
  let sod := (t - days * 86400).toNat
  let c := civilFromDays days
  padDec 4 c.1.toNat ++ '-' :: padDec 2 c.2.1 ++ '-' :: padDec 2 c.2.2 ++
    'T' :: padDec 2 (sod / 3600) ++ ':' :: padDec 2 (sod % 3600 / 60) ++
    ':' :: padDec 2 (sod % 60) ++ ['+', '0', '0', ':', '0', '0']

/-- `datetime.fromtimestamp(t, tz=timezone.utc).isoformat()`: defined for
epochs whose civil year lies in 1..9999 (the documented `datetime` range);
outside it the call raises (OverflowError / ValueError / OSError),
modelled as `none`. -/
def epochIso (t : Int) : Option PStr :=
  if -62135596800 ≤ t ∧ t ≤ 253402300799 then some (isoFromEpoch t) else none

/-- The int-conversion-then-isoformat pipeline shared by both
`epoch_to_iso` variants; `none` is any of the caught exceptions. -/
def epochConv (x : IS) : Option PStr :=
  (toPyInt x).bind epochIso

/-- `epoch_to_iso` from `port/helpers.py` (lenient variant): start from
`str(epoch_timestamp)`, overwrite with the ISO form when the conversion
succeeds, and return the stringified original input when any step raises. -/
def epoch_to_iso (x : IS) : PStr :=
  match epochConv x with
  | some iso => iso
  | none => strIS x

/-- `epoch_to_iso` from `port/parserlib/stringparse.py` (strict variant):
identical conversion, but any caught failure re-raises the typed
`CannotConvertEpochTimestamp` error, modelled as `Except.error`. -/
def epoch_to_iso_strict (x : IS) : Except String PStr :=
  match epochConv x with
  | some iso => .ok iso
  | none => .error "Cannot convert epoch timestamp"

/-! ## Archive fingerprint classification: `port/validate.py` -/

/-- `DDPFiletype` from `port/validate.py`. -/
inductive DDPFiletype where
  | JSON | HTML | CSV | TXT
deriving DecidableEq

/-- `Language` from `port/validate.py` (named `UILanguage` here because
Mathlib already declares a root `Language`). -/
inductive UILanguage where
  | EN | NL
deriving DecidableEq

/-- `DDPCategory` from `port/validate.py`: the fingerprint of one platform
export variant.  The Python dataclass defaults every field to `None`; the
claims concern registries whose entries carry an id and a known-file list,
so those two fields are embedded directly (a `None` id or file list never
reaches a successful classification). -/
structure DDPCategory where
  id : String
  ddp_filetype : Option DDPFiletype := none
  language : Option UILanguage := none
  known_files : List String := []
deriving DecidableEq

/-- The `ddp_categories_lookup` dict built by `ValidateInput.__post_init__`:
a dict comprehension keyed by category id, i.e. repeated insertion with
Python dict-update semantics. -/
def buildLookup (cats : List DDPCategory) : List (String × DDPCategory) :=
  cats.foldl (fun acc c => pyAssocUpdate acc c.id c) []

/-- The proportion `sum(1 if f in category.known_files else 0 for f in
file_list_input) / len(category.known_files) * 100` computed by
`infer_ddp_category`, in exact rational arithmetic. -/
def scoreCat (files : List String) (c : DDPCategory) : ℚ :=
  ((files.countP (fun f => decide (f ∈ c.known_files)) : ℚ) /
      (c.known_files.length : ℚ)) * 100

/-- One step of Python `max(..., key=...)`: the current best is replaced
only by a strictly larger value, so the first maximal element wins. -/
def pyMaxStep (b q : String × ℚ) : String × ℚ := if q.2 > b.2 then q else b

/-- `ValidateInput.infer_ddp_category` from `port/validate.py`, as a
function of the registry (through its lookup dict) and the submitted file
listing.  The result is `none` when the Python code raises
(`ZeroDivisionError` for a registered category with an empty known-file
list, `ValueError` from `max()` on an empty registry); otherwise it is the
returned boolean together with the `ddp_category` the method selects
(`none` standing for the field being left untouched on the `False`
branch). -/
def infer_ddp_category (cats : List DDPCategory) (files : List String) :
    Option (Bool × Option DDPCategory) :=
  if (buildLookup cats).any (fun p => p.2.known_files.isEmpty) then none
  else
    match (buildLookup cats).map (fun p => (p.1, scoreCat files p.2)) with
    | [] => none
    | p :: rest =>
        if (rest.foldl pyMaxStep p).2 ≥ 5 then
          some (true,
            ((buildLookup cats).find? (fun q => q.1 == (rest.foldl pyMaxStep p).1)).map (·.2))
        else
          some (false, none)

/-! ## Specification-side definitions used to state the claims -/

/-- The score formula as the specification states it:
`|entry_names ∩ f.known_file_names| / |f.known_file_names| * 100`, with
both operands read as finite sets. -/
def claimScore (entry_names : Finset String) (c : DDPCategory) : ℚ :=
  ((entry_names ∩ c.known_files.toFinset).card : ℚ) /
      (c.known_files.toFinset.card : ℚ) * 100

/-- Maximum of a list of rationals (0 for the empty list, which never
occurs in the statements using it). -/
def listMaxQ : List ℚ → ℚ
  | [] => 0
  | x :: l => l.foldl max x

/-- Split a flat key on the separator '-', recovering the serialized
segments (inverse of `pathKey` on separator-free segments). -/
def splitDash : PStr → List PStr
  | [] => [[]]
  | c :: rest =>
      let r := splitDash rest
      if c = '-' then [] :: r else (c :: r.headD []) :: r.tail

/-- Group consecutive elements with equal `f`-image (every run of equal
images becomes one chunk). -/
def chunkBy {α β : Type} [DecidableEq β] (f : α → β) : List α → List (List α)
  | [] => []
  | x :: xs =>
      match chunkBy f xs with
      | [] => [[x]]
      | [] :: rest => [x] :: [] :: rest
      | (y :: ys) :: rest =>
          if f x = f y then (x :: y :: ys) :: rest else [x] :: (y :: ys) :: rest

/-- Modelled from the spec: re-nest flat entries along their recorded
paths (the re-nesting half of the round-trip law of spec section 8, which
has no counterpart in the source).  Entries are grouped by leading path
segment; an all-digit leading segment rebuilds an array element list, any
other segment an object; a single entry with an exhausted path is a leaf.
The fuel argument bounds the nesting depth (the claim fixes depth 6). -/
def unflatten : Nat → List (List PStr × Prim) → J
  | _, [([], p)] => .leaf p
  | fuel + 1, entries =>
      let blocks := chunkBy (fun e => e.1.headD ([] : PStr)) entries
      let hd := (entries.headD ([], Prim.null)).1.headD []
      if hd ≠ [] ∧ hd.all (·.isDigit) then
        .arr (blocks.map fun b => unflatten fuel (b.map fun e => (e.1.drop 1, e.2)))
      else
        .obj (blocks.map fun b =>
          ((b.headD ([], Prim.null)).1.headD [],
            unflatten fuel (b.map fun e => (e.1.drop 1, e.2))))
  | 0, _ => .leaf Prim.null

/-- Modelled from the spec: re-nesting a flat record along its recorded
paths, the paths being recovered by splitting each recorded key on the
separator; depth bound 6 as in the round-trip claim. -/
def renest (record : List (PStr × Prim)) : J :=
  unflatten 6 (record.map fun e => (splitDash e.1, e.2))

mutual
/-- Nesting depth of a JSON tree: 0 at a leaf, one more than the deepest
child at an object or array. -/
def depthJ : J → Nat
  | .leaf _ => 0
  | .obj kvs => 1 + dObj kvs
  | .arr items => 1 + dArr items

/-- Depth over an object's children. -/
def dObj : List (PStr × J) → Nat
  | [] => 0
  | (_, v) :: rest => max (depthJ v) (dObj rest)

/-- Depth over an array's elements. -/
def dArr : List J → Nat
  | [] => 0
  | x :: rest => max (depthJ x) (dArr rest)
end

mutual
/-- A tree whose flat record is unambiguously re-nestable: every object
and array is nonempty, and every object key contains a non-digit character
(so a key is never confused with an array index and never empty). -/
def renestOk : J → Bool
  | .leaf _ => true
  | .obj kvs => !kvs.isEmpty && roObj kvs
  | .arr items => !items.isEmpty && roArr items

/-- `renestOk` over an object's children. -/
def roObj : List (PStr × J) → Bool
  | [] => true
  | (k, v) :: rest => k.any (fun c => !c.isDigit) && renestOk v && roObj rest

/-- `renestOk` over an array's elements. -/
def roArr : List J → Bool
  | [] => true
  | x :: rest => renestOk x && roArr rest
end

/-- Characters with no special meaning in a Python regex pattern. -/
def regexPlain (c : Char) : Bool :=
  !(c == '.' || c == '^' || c == '$' || c == '*' || c == '+' || c == '?' ||
    c == '\x7b' || c == '\x7d' || c == '[' || c == ']' || c == '\\' || c == '|' ||
    c == '(' || c == ')')

/-- Decimal value of a digit string (used to invert `natChars`). -/
def charsToNat (ds : List Char) : Nat :=
  ds.foldl (fun a c => 10 * a + (c.toNat - 48)) 0

/-- Index-headed blocks of an array's leaf entries, one per element. -/
def blocksArr : List J → Nat → List (List (List PStr × Prim))
  | [], _ => []
  | x :: rest, i =>
      (leafPaths x).map (fun e => (natChars i :: e.1, e.2)) :: blocksArr rest (i + 1)

/-! ## Lemmas about the `find_items` scan -/

/-- The scan returns either its incoming best value or the stringified
value of some entry of the dict. -/
theorem findFrom_mem (d : List (PStr × Prim)) :
    ∀ tok out dep, findFrom d tok out dep = out ∨
      ∃ kv ∈ d, findFrom d tok out dep = pyStr kv.2 := by
  induction d with
  | nil => intro tok out dep; left; rfl
  | cons kv rest ih =>
      intro tok out dep
      obtain ⟨k, v⟩ := kv
      simp only [findFrom]
      by_cases h : (matchesTok tok k && ltDepth (countSep k) dep) = true
      · rw [if_pos h]
        rcases ih tok (pyStr v) (some (countSep k)) with h1 | ⟨kv', hm, he⟩
        · right; exact ⟨(k, v), List.mem_cons_self _ _, h1⟩
        · right; exact ⟨kv', List.mem_cons_of_mem _ hm, he⟩
      · rw [if_neg h]
        rcases ih tok out dep with h1 | ⟨kv', hm, he⟩
        · left; exact h1
        · right; exact ⟨kv', List.mem_cons_of_mem _ hm, he⟩

/-- When no key matches, the scan keeps its incoming best value. -/
theorem findFrom_nomatch (d : List (PStr × Prim)) :
    ∀ tok out dep, (∀ kv ∈ d, matchesTok tok kv.1 = false) →
      findFrom d tok out dep = out := by
  induction d with
  | nil => intro tok out dep _; rfl
  | cons kv rest ih =>
      intro tok out dep h
      obtain ⟨k, v⟩ := kv
      simp only [findFrom]
      have hk : matchesTok tok k = false := h (k, v) (List.mem_cons_self _ _)
      rw [if_neg (by simp [hk])]
      exact ih tok out dep fun kv' h' => h kv' (List.mem_cons_of_mem _ h')

/-- C10: `find_items` always returns a string: the stringified stored
value of some entry when a match is selected (integers in decimal,
booleans as True/False, null as None, strings unchanged), and the empty
string when no key matches the token. -/
theorem C10_find_items_stringifies (d : List (PStr × Prim)) (tok : PStr) :
    (find_items d tok = [] ∨ ∃ kv ∈ d, find_items d tok = pyStr kv.2) ∧
    ((∀ kv ∈ d, matchesTok tok kv.1 = false) → find_items d tok = []) ∧
    pyStr (.i 1) = "1".toList ∧ pyStr (.b true) = "True".toList ∧
    pyStr (.b false) = "False".toList ∧ pyStr .null = "None".toList ∧
    pyStr (.s "x".toList) = "x".toList := by
  unfold find_items
  exact ⟨findFrom_mem d tok [] none,
    fun h => findFrom_nomatch d tok [] none h,
    by decide, by decide, by decide, by decide, by decide⟩

/-- Witness for C10 at a concrete record and token. -/
theorem C10_witness : find_items [(['k'], Prim.i 1)] ['z'] = [] := by
  refine (C10_find_items_stringifies [(['k'], Prim.i 1)] ['z']).2.1 ?_
  intro kv hkv
  have : kv = (['k'], Prim.i 1) := by simpa using hkv
  subst this
  decide

/-! ## Timestamp claims -/

/-- C8: `epoch_to_iso(0)` renders the UTC epoch with explicit offset; on
any conversion failure the strict variant fails with the typed
`CannotConvertEpochTimestamp` error while the lenient variant returns the
stringified original input. -/
theorem C8_epoch_to_iso_modes (x : IS) (h : epochConv x = none) :
    epoch_to_iso (.i 0) = "1970-01-01T00:00:00+00:00".toList ∧
    epoch_to_iso_strict (.i 0) = .ok "1970-01-01T00:00:00+00:00".toList ∧
    epoch_to_iso_strict x = .error "Cannot convert epoch timestamp" ∧
    epoch_to_iso x = strIS x := by
  refine ⟨by decide, by rfl, ?_, ?_⟩
  · simp [epoch_to_iso_strict, h]
  · simp [epoch_to_iso, h]

/-- Witness for C8: the string "abc" is not convertible, the strict
variant raises on it, and the lenient variant hands it back. -/
theorem C8_witness :
    epochConv (.s "abc".toList) = none ∧
    epoch_to_iso_strict (.s "abc".toList) = .error "Cannot convert epoch timestamp" ∧
    epoch_to_iso (.s "abc".toList) = "abc".toList := by
  have h : epochConv (.s "abc".toList) = none := by decide
  exact ⟨h, (C8_epoch_to_iso_modes _ h).2.2.1, (C8_epoch_to_iso_modes _ h).2.2.2⟩

/-- C9: `is_epoch` accepts exactly when each of the first `check_minimum`
values has an integer interpretation inside the inclusive window
[946684800, 2208988800]; the lower boundary is accepted and its
predecessor rejected. -/
theorem C9_epoch_window (l : List IS) (k : Nat) :
    (is_epoch l k = true ↔
      ∀ v ∈ l.take k, ∃ t, toPyInt v = some t ∧ 946684800 ≤ t ∧ t ≤ 2208988800) ∧
    is_epoch [.i 946684800] 10 = true ∧ is_epoch [.i 946684799] 10 = false := by
  refine ⟨?_, by decide, by decide⟩
  unfold is_epoch
  rw [List.all_eq_true]
  constructor
  · intro h v hv
    have hb := h v hv
    cases ht : toPyInt v with
    | none => rw [ht] at hb; simp at hb
    | some t =>
        rw [ht] at hb
        simp only [Bool.and_eq_true, decide_eq_true_eq] at hb
        exact ⟨t, rfl, hb.1, hb.2⟩
  · intro h v hv
    obtain ⟨t, ht, h1, h2⟩ := h v hv
    rw [ht]
    simp [h1, h2]

/-- Witness for C9 at a concrete two-element candidate list. -/
theorem C9_witness :
    is_epoch [IS.i 946684800, IS.s "2000000000".toList] 10 = true := by
  refine ((C9_epoch_window [IS.i 946684800, IS.s "2000000000".toList] 10).1).mpr ?_
  intro v hv
  simp only [List.take, List.mem_cons, List.not_mem_nil, or_false] at hv
  rcases hv with h | h <;> subst h
  · exact ⟨946684800, rfl, by decide, by decide⟩
  · exact ⟨2000000000, by decide, by decide, by decide⟩

/-! ## Lemmas about the classification model -/

/-- Updating a dict never empties it. -/
theorem pyAssocUpdate_ne_nil {α β : Type} [DecidableEq α]
    (d : List (α × β)) (k : α) (v : β) : pyAssocUpdate d k v ≠ [] := by
  unfold pyAssocUpdate
  split
  · rename_i h
    cases d with
    | nil => simp at h
    | cons p rest => simp
  · simp

/-- Every value of an updated dict is an old value or the inserted one. -/
theorem pyAssocUpdate_val {α β : Type} [DecidableEq α]
    (d : List (α × β)) (k : α) (v : β) (x : β)
    (hx : x ∈ (pyAssocUpdate d k v).map (·.2)) :
    x ∈ d.map (·.2) ∨ x = v := by
  unfold pyAssocUpdate at hx
  split at hx
  · rw [List.map_map] at hx
    obtain ⟨q, hq, hqx⟩ := List.mem_map.mp hx
    by_cases hqk : q.1 = k
    · simp [hqk] at hqx
      exact Or.inr hqx.symm
    · simp [hqk] at hqx
      exact Or.inl (hqx ▸ List.mem_map_of_mem _ hq)
  · rw [List.map_append] at hx
    rcases List.mem_append.mp hx with h | h
    · exact Or.inl h
    · simp at h
      exact Or.inr h

/-- Inserting a key absent from the dict appends the pair. -/
theorem pyAssocUpdate_fresh {α β : Type} [DecidableEq α]
    (d : List (α × β)) (k : α) (v : β) (h : ∀ p ∈ d, p.1 ≠ k) :
    pyAssocUpdate d k v = d ++ [(k, v)] := by
  unfold pyAssocUpdate
  rw [if_neg]
  intro hc
  obtain ⟨p, hp, hpk⟩ := List.any_eq_true.mp hc
  exact h p hp (of_decide_eq_true hpk)

/-- Building the lookup from categories with pairwise distinct ids simply
pairs every category with its id, in registry order. -/
theorem foldl_update_fresh (cats : List DDPCategory) :
    ∀ acc : List (String × DDPCategory),
      (∀ c ∈ cats, ∀ p ∈ acc, p.1 ≠ c.id) →
      (cats.map (·.id)).Nodup →
      List.foldl (fun a c => pyAssocUpdate a c.id c) acc cats =
        acc ++ cats.map fun c => (c.id, c) := by
  induction cats with
  | nil => intro acc _ _; simp
  | cons c rest ih =>
      intro acc hdisj hnd
      rw [List.foldl_cons,
        pyAssocUpdate_fresh acc c.id c (fun p hp => hdisj c (List.mem_cons_self _ _) p hp),
        ih (acc ++ [(c.id, c)]) ?_ (List.nodup_cons.mp hnd).2]
      · simp
      · intro c' hc' p hp
        rcases List.mem_append.mp hp with h | h
        · exact hdisj c' (List.mem_cons_of_mem _ hc') p h
        · simp at h
          rw [h]
          intro hcc
          have : c'.id ∈ rest.map (·.id) := List.mem_map_of_mem _ hc'
          rw [← show (c.id, c).1 = c'.id from hcc] at this
          exact (List.nodup_cons.mp hnd).1 this

/-- `buildLookup` on a distinct-id registry. -/
theorem buildLookup_eq (cats : List DDPCategory)
    (hids : (cats.map (·.id)).Nodup) :
    buildLookup cats = cats.map fun c => (c.id, c) := by
  unfold buildLookup
  rw [foldl_update_fresh cats [] (by simp) hids]
  simp

/-- Every value stored in the lookup is a registered category. -/
theorem buildLookup_val (cats : List DDPCategory) :
    ∀ p ∈ buildLookup cats, p.2 ∈ cats := by
  unfold buildLookup
  suffices h : ∀ (l : List DDPCategory) (acc : List (String × DDPCategory)) p,
      p ∈ List.foldl (fun a c => pyAssocUpdate a c.id c) acc l →
      p.2 ∈ acc.map (·.2) ∨ p.2 ∈ l by
    intro p hp
    rcases h cats [] p hp with h1 | h1
    · simp at h1
    · exact h1
  intro l
  induction l with
  | nil =>
      intro acc p hp
      exact Or.inl (List.mem_map_of_mem _ hp)
  | cons c rest ih =>
      intro acc p hp
      rw [List.foldl_cons] at hp
      rcases ih (pyAssocUpdate acc c.id c) p hp with h1 | h1
      · rcases pyAssocUpdate_val acc c.id c _ h1 with h2 | h2
        · exact Or.inl h2
        · exact Or.inr (h2 ▸ List.mem_cons_self _ _)
      · exact Or.inr (List.mem_cons_of_mem _ h1)

/-- A nonempty registry yields a nonempty lookup. -/
theorem buildLookup_ne_nil (cats : List DDPCategory) (h : cats ≠ []) :
    buildLookup cats ≠ [] := by
  unfold buildLookup
  cases cats with
  | nil => exact absurd rfl h
  | cons c rest =>
      rw [List.foldl_cons]
      suffices haux : ∀ (l : List DDPCategory) (acc : List (String × DDPCategory)),
          acc ≠ [] → List.foldl (fun a c => pyAssocUpdate a c.id c) acc l ≠ [] from
        haux rest _ (pyAssocUpdate_ne_nil [] c.id c)
      intro l
      induction l with
      | nil => intro acc hacc; exact hacc
      | cons x xs ih =>
          intro acc hacc
          rw [List.foldl_cons]
          exact ih _ (pyAssocUpdate_ne_nil acc x.id x)

/-- Python `max(..., key=...)` over a scan with strict improvement: the
scan returns the element at the first index attaining the maximum. -/
theorem foldl_pyMaxStep_spec (l : List (String × ℚ)) :
    ∀ p : String × ℚ,
      ∃ k, ∃ hk : k < (p :: l).length,
        l.foldl pyMaxStep p = (p :: l).get ⟨k, hk⟩ ∧
        (∀ j (hj : j < (p :: l).length),
          ((p :: l).get ⟨j, hj⟩).2 ≤ ((p :: l).get ⟨k, hk⟩).2) ∧
        (∀ j (hj : j < (p :: l).length), j < k →
          ((p :: l).get ⟨j, hj⟩).2 < ((p :: l).get ⟨k, hk⟩).2) := by
  induction l with
  | nil =>
      intro p
      refine ⟨0, by simp, rfl, ?_, ?_⟩
      · intro j hj
        simp at hj
        subst hj
        exact le_refl _
      · intro j hj hj0
        omega
  | cons q l ih =>
      intro p
      rw [List.foldl_cons]
      by_cases hpq : q.2 > p.2
      · obtain ⟨k, hk, heq, hle, hlt⟩ := ih (pyMaxStep p q)
        have hstep : pyMaxStep p q = q := by simp [pyMaxStep, hpq]
        rw [hstep] at hk heq hle hlt ⊢
        refine ⟨k + 1, by simp at hk ⊢; omega, heq, ?_, ?_⟩
        · intro j hj
          cases j with
          | zero =>
              have hq := hle 0 (by simp)
              exact le_trans (le_of_lt hpq) hq
          | succ j' => exact hle j' (by simp at hj ⊢; omega)
        · intro j hj hjk
          cases j with
          | zero =>
              have hq := hle 0 (by simp)
              exact lt_of_lt_of_le hpq hq
          | succ j' => exact hlt j' (by simp at hj ⊢; omega) (by omega)
      · obtain ⟨k, hk, heq, hle, hlt⟩ := ih (pyMaxStep p q)
        have hstep : pyMaxStep p q = p := by simp [pyMaxStep, hpq]
        rw [hstep] at hk heq hle hlt ⊢
        have hqp : q.2 ≤ p.2 := le_of_not_lt hpq
        cases k with
        | zero =>
            refine ⟨0, by simp, heq, ?_, ?_⟩
            · intro j hj
              cases j with
              | zero => exact le_refl _
              | succ j' =>
                  cases j' with
                  | zero => exact hqp
                  | succ j'' => exact hle (j'' + 1) (by simp at hj ⊢; omega)
            · intro j hj hj0
              omega
        | succ i =>
            refine ⟨i + 2, by simp at hk ⊢; omega, heq, ?_, ?_⟩
            · intro j hj
              cases j with
              | zero => exact hle 0 (by simp)
              | succ j' =>
                  cases j' with
                  | zero => exact le_trans hqp (hle 0 (by simp))
                  | succ j'' => exact hle (j'' + 1) (by simp at hj ⊢; omega)
            · intro j hj hjk
              cases j with
              | zero => exact hlt 0 (by simp) (by omega)
              | succ j' =>
                  cases j' with
                  | zero => exact lt_of_le_of_lt hqp (hlt 0 (by simp) (by omega))
                  | succ j'' => exact hlt (j'' + 1) (by simp at hj ⊢; omega) (by omega)

/-- `find?` on the id-keyed lookup of a distinct-id registry retrieves
exactly the category at the queried index. -/
theorem find_map_id_nodup (cats : List DDPCategory) :
    ∀ (hids : (cats.map (·.id)).Nodup) (k : Nat) (hk : k < cats.length),
      (cats.map fun c => (c.id, c)).find?
          (fun q => q.1 == (cats.get ⟨k, hk⟩).id) =
        some ((cats.get ⟨k, hk⟩).id, cats.get ⟨k, hk⟩) := by
  induction cats with
  | nil => intro _ k hk; simp at hk
  | cons c rest ih =>
      intro hids k hk
      cases k with
      | zero => simp [List.find?]
      | succ k' =>
          have hk' : k' < rest.length := by simp at hk; omega
          have hmem : rest.get ⟨k', hk'⟩ ∈ rest := List.get_mem _ _ _
          have hni : c.id ∉ rest.map (·.id) := (List.nodup_cons.mp hids).1
          have hne : ¬ c.id = (rest.get ⟨k', hk'⟩).id := by
            intro hcc
            exact hni (hcc ▸ List.mem_map_of_mem _ hmem)
          rw [List.map_cons, List.find?_cons_of_neg _ (by simpa using hne)]
          exact ih (List.nodup_cons.mp hids).2 k' hk'

/-- The scan maximum of a rational list: initial element bound and member
bounds for `List.foldl max`. -/
theorem foldl_max_spec (l : List ℚ) :
    ∀ a : ℚ, (l.foldl max a = a ∨ l.foldl max a ∈ l) ∧
      a ≤ l.foldl max a ∧ ∀ x ∈ l, x ≤ l.foldl max a := by
  induction l with
  | nil => intro a; exact ⟨Or.inl rfl, le_refl _, by simp⟩
  | cons y l ih =>
      intro a
      rw [List.foldl_cons]
      obtain ⟨hmem, hinit, hbound⟩ := ih (max a y)
      refine ⟨?_, ?_, ?_⟩
      · rcases hmem with h | h
        · rcases le_total a y with hay | hay
          · right
            rw [h, max_eq_right hay]
            exact List.mem_cons_self _ _
          · left
            rw [h, max_eq_left hay]
        · exact Or.inr (List.mem_cons_of_mem _ h)
      · exact le_trans (le_max_left _ _) hinit
      · intro x hx
        rcases List.mem_cons.mp hx with h | h
        · rw [h]; exact le_trans (le_max_right _ _) hinit
        · exact hbound x h

/-- The maximum of a nonempty list is attained by a member. -/
theorem listMaxQ_mem (l : List ℚ) (h : l ≠ []) : listMaxQ l ∈ l := by
  cases l with
  | nil => exact absurd rfl h
  | cons x l =>
      show List.foldl max x l ∈ x :: l
      rcases (foldl_max_spec l x).1 with h1 | h1
      · rw [h1]; exact List.mem_cons_self _ _
      · exact List.mem_cons_of_mem _ h1

/-- Every member is bounded by the list maximum. -/
theorem le_listMaxQ (l : List ℚ) (x : ℚ) (hx : x ∈ l) : x ≤ listMaxQ l := by
  cases l with
  | nil => simp at hx
  | cons y l =>
      show x ≤ List.foldl max y l
      rcases List.mem_cons.mp hx with h | h
      · rw [h]; exact (foldl_max_spec l y).2.1
      · exact (foldl_max_spec l y).2.2 x h

/-- Characterization of `infer_ddp_category` on a well-formed registry:
there is a distinguished index `k` (the first index attaining the maximal
score) such that the method recognizes the category at `k` exactly when
its score reaches the 5 percent threshold, and otherwise reports failure
with no category. -/
theorem infer_char (cats : List DDPCategory) (files : List String)
    (hids : (cats.map (·.id)).Nodup) (hne : cats ≠ [])
    (hkf : ∀ c ∈ cats, c.known_files ≠ []) :
    ∃ k, ∃ hk : k < cats.length,
      (∀ j (hj : j < cats.length),
        scoreCat files (cats.get ⟨j, hj⟩) ≤ scoreCat files (cats.get ⟨k, hk⟩)) ∧
      (∀ j (hj : j < cats.length), j < k →
        scoreCat files (cats.get ⟨j, hj⟩) < scoreCat files (cats.get ⟨k, hk⟩)) ∧
      infer_ddp_category cats files =
        (if 5 ≤ scoreCat files (cats.get ⟨k, hk⟩) then
          some (true, some (cats.get ⟨k, hk⟩))
        else some (false, none)) := by
  have hlook := buildLookup_eq cats hids
  have hany : ((buildLookup cats).any fun p => p.2.known_files.isEmpty) = false := by
    rw [hlook, List.any_eq_false]
    intro p hp
    obtain ⟨c, hc, rfl⟩ := List.mem_map.mp hp
    simpa [List.isEmpty_iff] using hkf c hc
  cases cats with
  | nil => exact absurd rfl hne
  | cons c0 ctl =>
      obtain ⟨k, hk, heq, hle, hlt⟩ := foldl_pyMaxStep_spec
        (ctl.map fun c => (c.id, scoreCat files c)) (c0.id, scoreCat files c0)
      have hk2 : k < (c0 :: ctl).length := by simpa using hk
      have hbr : ∀ j (hjc : j < ((c0.id, scoreCat files c0) ::
            ctl.map fun c => (c.id, scoreCat files c)).length)
          (hj : j < (c0 :: ctl).length),
          ((c0.id, scoreCat files c0) ::
              ctl.map fun c => (c.id, scoreCat files c)).get ⟨j, hjc⟩ =
            (((c0 :: ctl).get ⟨j, hj⟩).id, scoreCat files ((c0 :: ctl).get ⟨j, hj⟩)) := by
        intro j hjc hj
        cases j with
        | zero => rfl
        | succ j' =>
            show (ctl.map fun c => (c.id, scoreCat files c)).get ⟨j', _⟩ = _
            rw [List.get_eq_getElem, List.getElem_map]
            rfl
      refine ⟨k, hk2, ?_, ?_, ?_⟩
      · intro j hj
        have h := hle j (by simpa using hj)
        rw [hbr j _ hj, hbr k _ hk2] at h
        exact h
      · intro j hj hjk
        have h := hlt j (by simpa using hj) hjk
        rw [hbr j _ hj, hbr k _ hk2] at h
        exact h
      · have heq2 : (ctl.map fun c => (c.id, scoreCat files c)).foldl pyMaxStep
            (c0.id, scoreCat files c0) =
            (((c0 :: ctl).get ⟨k, hk2⟩).id, scoreCat files ((c0 :: ctl).get ⟨k, hk2⟩)) := by
          rw [heq, hbr k _ hk2]
        unfold infer_ddp_category
        rw [if_neg (by simp [hany])]
        rw [hlook, List.map_map]
        have hcomp : ((fun p : String × DDPCategory => (p.1, scoreCat files p.2)) ∘
            fun c => (c.id, c)) = fun c => (c.id, scoreCat files c) := rfl
        rw [hcomp, List.map_cons]
        simp only []
        rw [heq2]
        by_cases h5 : 5 ≤ scoreCat files ((c0 :: ctl).get ⟨k, hk2⟩)
        · rw [if_pos (by exact h5), if_pos h5]
          rw [show (((c0 :: ctl).get ⟨k, hk2⟩).id,
              scoreCat files ((c0 :: ctl).get ⟨k, hk2⟩)).1 =
            ((c0 :: ctl).get ⟨k, hk2⟩).id from rfl]
          rw [find_map_id_nodup (c0 :: ctl) hids k hk2]
          rfl
        · rw [if_neg (by exact h5), if_neg h5]

/-- On duplicate-free inputs the implemented proportion coincides with the
specification's set-cardinality score formula. -/
theorem claimScore_eq_scoreCat (files : List String) (c : DDPCategory)
    (hf : files.Nodup) (hk : c.known_files.Nodup) :
    claimScore files.toFinset c = scoreCat files c := by
  unfold claimScore scoreCat
  have hnum : (files.toFinset ∩ c.known_files.toFinset).card =
      files.countP fun f => decide (f ∈ c.known_files) := by
    rw [List.countP_eq_length_filter]
    have hfil : (files.filter fun f => decide (f ∈ c.known_files)).toFinset =
        files.toFinset ∩ c.known_files.toFinset := by
      ext x
      simp [List.mem_filter]
    rw [← hfil, List.toFinset_card_of_nodup (hf.filter _)]
  have hden : c.known_files.toFinset.card = c.known_files.length :=
    List.toFinset_card_of_nodup hk
  rw [hnum, hden]

/-- C1: on a nonempty registry of fingerprints with distinct ids and
nonempty duplicate-free known-file lists, classification scores each
fingerprint by the set formula |entry names ∩ known files| divided by
|known files| times 100, recognizes a maximal-scoring fingerprint exactly
when the maximal score reaches the threshold 5 (boundary included since
the comparison is non-strict), and reports Unrecognized with no category
when every score is below the threshold. -/
theorem C1_fingerprint_classification (cats : List DDPCategory) (files : List String)
    (hne : cats ≠ []) (hids : (cats.map (·.id)).Nodup)
    (hkf : ∀ c ∈ cats, c.known_files ≠ []) (hkn : ∀ c ∈ cats, c.known_files.Nodup)
    (hfs : files.Nodup) :
    (5 ≤ listMaxQ (cats.map (claimScore files.toFinset)) →
      ∃ c ∈ cats,
        claimScore files.toFinset c = listMaxQ (cats.map (claimScore files.toFinset)) ∧
        infer_ddp_category cats files = some (true, some c)) ∧
    (listMaxQ (cats.map (claimScore files.toFinset)) < 5 →
      infer_ddp_category cats files = some (false, none)) ∧
    ((∃ r, infer_ddp_category cats files = some (true, r)) ↔
      5 ≤ listMaxQ (cats.map (claimScore files.toFinset))) := by
  have hmapeq : cats.map (claimScore files.toFinset) = cats.map (scoreCat files) :=
    List.map_congr_left fun c hc => claimScore_eq_scoreCat files c hfs (hkn c hc)
  rw [hmapeq]
  obtain ⟨k, hk, hle, hlt, hres⟩ := infer_char cats files hids hne hkf
  have hmemk : scoreCat files (cats.get ⟨k, hk⟩) ∈ cats.map (scoreCat files) := by
    rw [List.mem_map]
    exact ⟨cats.get ⟨k, hk⟩, List.get_mem _ _ _, rfl⟩
  have hmne : cats.map (scoreCat files) ≠ [] := by
    intro hcon
    exact hne (by simpa using hcon)
  have hmax : listMaxQ (cats.map (scoreCat files)) = scoreCat files (cats.get ⟨k, hk⟩) := by
    refine le_antisymm ?_ (le_listMaxQ _ _ hmemk)
    obtain ⟨c, hc, hceq⟩ := List.mem_map.mp (listMaxQ_mem _ hmne)
    obtain ⟨⟨j, hj⟩, hjeq⟩ := List.mem_iff_get.mp hc
    rw [← hceq, ← hjeq]
    exact hle j hj
  rw [hmax]
  refine ⟨?_, ?_, ?_⟩
  · intro h5
    refine ⟨cats.get ⟨k, hk⟩, List.get_mem _ _ _, ?_, ?_⟩
    · rw [claimScore_eq_scoreCat files _ hfs (hkn _ (List.get_mem _ _ _))]
    · rw [hres, if_pos h5]
  · intro h5
    rw [hres, if_neg (not_le.mpr h5)]
  · constructor
    · rintro ⟨r, hr⟩
      by_contra h5
      rw [hres, if_neg h5] at hr
      simp at hr
    · intro h5
      exact ⟨some (cats.get ⟨k, hk⟩), by rw [hres, if_pos h5]⟩

/-- Witness for C1 on a one-fingerprint registry whose single known file
is present in the listing. -/
theorem C1_witness :
    ∃ c ∈ ([⟨"a", none, none, ["x.json"]⟩] : List DDPCategory),
      claimScore (["x.json"] : List String).toFinset c =
        listMaxQ (([⟨"a", none, none, ["x.json"]⟩] : List DDPCategory).map
          (claimScore (["x.json"] : List String).toFinset)) ∧
      infer_ddp_category [⟨"a", none, none, ["x.json"]⟩] ["x.json"] =
        some (true, some c) := by
  refine (C1_fingerprint_classification [⟨"a", none, none, ["x.json"]⟩] ["x.json"]
    (by simp) (by simp) ?_ ?_ (by simp)).1 ?_
  · intro c hc
    fin_cases hc
    simp
  · intro c hc
    fin_cases hc
    simp
  · norm_num [listMaxQ, claimScore]

/-- C6: when several fingerprints with distinct ids tie on the maximal
score at or above the threshold, classification deterministically returns
the fingerprint registered earliest (the result index is smallest among
all indices attaining the maximal score). -/
theorem C6_tie_break (cats : List DDPCategory) (files : List String)
    (hids : (cats.map (·.id)).Nodup) (hkf : ∀ c ∈ cats, c.known_files ≠ [])
    (i j : Nat) (hi : i < cats.length) (hj : j < cats.length) (hij : i ≠ j)
    (hmaxi : ∀ l (hl : l < cats.length),
      scoreCat files (cats.get ⟨l, hl⟩) ≤ scoreCat files (cats.get ⟨i, hi⟩))
    (heq : scoreCat files (cats.get ⟨j, hj⟩) = scoreCat files (cats.get ⟨i, hi⟩))
    (h5 : 5 ≤ scoreCat files (cats.get ⟨i, hi⟩)) :
    ∃ k, ∃ hk : k < cats.length,
      scoreCat files (cats.get ⟨k, hk⟩) = scoreCat files (cats.get ⟨i, hi⟩) ∧
      (∀ l (hl : l < cats.length),
        scoreCat files (cats.get ⟨l, hl⟩) = scoreCat files (cats.get ⟨i, hi⟩) → k ≤ l) ∧
      infer_ddp_category cats files = some (true, some (cats.get ⟨k, hk⟩)) := by
  have hne : cats ≠ [] := by
    intro hcon
    rw [hcon] at hi
    simp at hi
  obtain ⟨k, hk, hle, hlt, hres⟩ := infer_char cats files hids hne hkf
  have hks : scoreCat files (cats.get ⟨k, hk⟩) = scoreCat files (cats.get ⟨i, hi⟩) :=
    le_antisymm (hmaxi k hk) (hle i hi)
  refine ⟨k, hk, hks, ?_, ?_⟩
  · intro l hl hleq
    by_contra hkl
    push_neg at hkl
    have hcon := hlt l hl hkl
    rw [hleq, hks] at hcon
    exact lt_irrefl _ hcon
  · rw [hres, if_pos (by rw [hks]; exact h5)]

/-- Witness for C6: two fingerprints tie at score 100; the one registered
first is returned. -/
theorem C6_witness :
    infer_ddp_category
        [⟨"a", none, none, ["x.json"]⟩, ⟨"b", none, none, ["y.json"]⟩]
        ["x.json", "y.json"] =
      some (true, some ⟨"a", none, none, ["x.json"]⟩) := by
  have hkf : ∀ c ∈ ([⟨"a", none, none, ["x.json"]⟩,
      ⟨"b", none, none, ["y.json"]⟩] : List DDPCategory), c.known_files ≠ [] := by
    intro c hc
    fin_cases hc <;> simp
  have hml : ∀ l (hl : l < ([⟨"a", none, none, ["x.json"]⟩,
      ⟨"b", none, none, ["y.json"]⟩] : List DDPCategory).length),
      scoreCat ["x.json", "y.json"] (([⟨"a", none, none, ["x.json"]⟩,
        ⟨"b", none, none, ["y.json"]⟩] : List DDPCategory).get ⟨l, hl⟩) ≤
      scoreCat ["x.json", "y.json"] (([⟨"a", none, none, ["x.json"]⟩,
        ⟨"b", none, none, ["y.json"]⟩] : List DDPCategory).get ⟨0, by simp⟩) := by
    intro l hl
    simp only [List.length_cons, List.length_nil] at hl
    interval_cases l <;> simp [scoreCat, List.get, List.countP_cons, List.countP_nil]
  have hE : scoreCat ["x.json", "y.json"] (([⟨"a", none, none, ["x.json"]⟩,
      ⟨"b", none, none, ["y.json"]⟩] : List DDPCategory).get ⟨1, by simp⟩) =
      scoreCat ["x.json", "y.json"] (([⟨"a", none, none, ["x.json"]⟩,
        ⟨"b", none, none, ["y.json"]⟩] : List DDPCategory).get ⟨0, by simp⟩) := by
    simp [scoreCat, List.get, List.countP_cons, List.countP_nil]
  have h5 : (5 : ℚ) ≤ scoreCat ["x.json", "y.json"] (([⟨"a", none, none, ["x.json"]⟩,
      ⟨"b", none, none, ["y.json"]⟩] : List DDPCategory).get ⟨0, by simp⟩) := by
    simp [scoreCat, List.get, List.countP_cons, List.countP_nil]
    norm_num
  obtain ⟨k, hk, hks, hearl, hinf⟩ :=
    C6_tie_break [⟨"a", none, none, ["x.json"]⟩, ⟨"b", none, none, ["y.json"]⟩]
      ["x.json", "y.json"] (by simp) hkf 0 1 (by simp) (by simp) (by omega)
      hml hE h5
  have hk0 : k = 0 := Nat.le_zero.mp (hearl 0 (by simp) rfl)
  subst hk0
  simpa using hinf

/-- C7 (amended): classification is total and never raises provided the
registry is nonempty and every registered known-file list is nonempty;
with such a registry every file listing, including one matching nothing,
produces a result. -/
theorem C7_total_on_wellformed_registry (cats : List DDPCategory) (files : List String)
    (hne : cats ≠ []) (hkf : ∀ c ∈ cats, c.known_files ≠ []) :
    ∃ r, infer_ddp_category cats files = some r := by
  unfold infer_ddp_category
  have hany : ((buildLookup cats).any fun p => p.2.known_files.isEmpty) = false := by
    rw [List.any_eq_false]
    intro p hp
    have hv := buildLookup_val cats p hp
    simpa [List.isEmpty_iff] using hkf _ hv
  rw [if_neg (by simp [hany])]
  have hmne : (buildLookup cats).map (fun p => (p.1, scoreCat files p.2)) ≠ [] := by
    intro hcon
    exact buildLookup_ne_nil cats hne (by simpa using hcon)
  obtain ⟨p, rest, hpr⟩ := List.exists_cons_of_ne_nil hmne
  rw [hpr]
  dsimp only
  by_cases h5 : (rest.foldl pyMaxStep p).2 ≥ 5
  · rw [if_pos h5]
    exact ⟨_, rfl⟩
  · rw [if_neg h5]
    exact ⟨_, rfl⟩

/-- Counterexample to C7 as stated: the constructor accepts a registry
containing a fingerprint with an empty known-file list, and on it
`infer_ddp_category` raises ZeroDivisionError (modelled as `none`) for
every listing. -/
theorem C7_counterexample :
    infer_ddp_category [⟨"instagram", none, none, []⟩] ["followers.json"] = none := by
  decide

/-- Witness for C7 on a well-formed registry and a listing matching no
known file (the Unrecognized outcome, still a returned value). -/
theorem C7_witness :
    ∃ r, infer_ddp_category [⟨"a", none, none, ["x.json"]⟩] ["nomatch.json"] = some r := by
  refine C7_total_on_wellformed_registry [⟨"a", none, none, ["x.json"]⟩] ["nomatch.json"]
    (by simp) ?_
  intro c hc
  fin_cases hc
  simp

/-! ## Matching lemmas for `find_items` -/

/-- A wildcard-free token regex matches itself. -/
theorem tokMatch_refl (tok : PStr) (hplain : tok.all (fun c => !(c == '.')) = true) :
    tokMatch tok tok = true := by
  induction tok with
  | nil => rfl
  | cons c tr ih =>
      simp only [List.all_cons, Bool.and_eq_true] at hplain
      have hc : ¬ c = '.' := by simpa using hplain.1
      simp [tokMatch, hc, ih hplain.2]

/-- A wildcard-free token regex matches only itself. -/
theorem tokMatch_plain_eq (tok : PStr) :
    ∀ mid : PStr, tok.all (fun c => !(c == '.')) = true →
      tokMatch tok mid = true → mid = tok := by
  induction tok with
  | nil =>
      intro mid _ h
      cases mid with
      | nil => rfl
      | cons _ _ => simp [tokMatch] at h
  | cons c tr ih =>
      intro mid hplain h
      cases mid with
      | nil => simp [tokMatch] at h
      | cons x xr =>
          simp only [List.all_cons, Bool.and_eq_true] at hplain
          have hc : ¬ c = '.' := by simpa using hplain.1
          simp only [tokMatch, if_neg hc, Bool.and_eq_true, beq_iff_eq] at h
          rw [ih xr hplain.2 h.2, h.1]

/-- Newline-freedom restricts to prefixes. -/
theorem nlFree_take (k : PStr) (n : Nat) (h : nlFree k = true) :
    nlFree (k.take n) = true := by
  rw [nlFree, List.all_eq_true] at h ⊢
  intro c hc
  exact h c (List.mem_of_mem_take hc)

/-- Newline-freedom restricts to suffixes. -/
theorem nlFree_drop (k : PStr) (n : Nat) (h : nlFree k = true) :
    nlFree (k.drop n) = true := by
  rw [nlFree, List.all_eq_true] at h ⊢
  intro c hc
  exact h c (List.mem_of_mem_drop hc)

/-- A newline-free remainder satisfies the tail condition of the pattern. -/
theorem tailOk_of_nlFree (s : PStr) (h : nlFree s = true) : tailOk s = true := by
  rw [tailOk, h]
  rfl

/-- Plain tokens contain no wildcard. -/
theorem regexPlain_not_dot (tok : PStr) (h : tok.all regexPlain = true) :
    tok.all (fun c => !(c == '.')) = true := by
  rw [List.all_eq_true] at h ⊢
  intro c hc
  have hrc := h c hc
  simp [regexPlain] at hrc
  simp [hrc.1]

/-- Counterexample to C5 as stated: the token is interpolated into a regex
pattern, so a '.' in the token acts as a wildcard; key "abc" is matched by
token "a.c" and its value is returned, although "a.c" is not a literal
substring of "abc". -/
theorem C5_counterexample :
    find_items [("abc".toList, Prim.i 7)] "a.c".toList = "7".toList ∧
    matchesTok "a.c".toList "abc".toList = true ∧
    ¬ List.IsInfix "a.c".toList "abc".toList := by
  refine ⟨by decide, by decide, by decide⟩

/-- C5 (amended): `find_items` matches a key against the regex
`^.*token.*$` with the token interpolated verbatim, so regex
metacharacters in the token stay active; for tokens made of plain
characters (no regex metacharacters) and newline-free keys the match
holds exactly when the token occurs in the serialized key as a literal
substring. -/
theorem C5_match_is_substring_for_plain_tokens (tok k : PStr)
    (htok : tok.all regexPlain = true) (hk : nlFree k = true) :
    matchesTok tok k = true ↔ List.IsInfix tok k := by
  have hnd : tok.all (fun c => !(c == '.')) = true := regexPlain_not_dot tok htok
  constructor
  · intro h
    rw [matchesTok, List.any_eq_true] at h
    obtain ⟨i, hi, h2⟩ := h
    rw [Bool.and_eq_true, List.any_eq_true] at h2
    obtain ⟨hpre, m, hm, h3⟩ := h2
    rw [Bool.and_eq_true] at h3
    obtain ⟨hmid, htail⟩ := h3
    have hmid' := tokMatch_plain_eq tok _ hnd hmid
    refine ⟨k.take i, (k.drop i).drop m, ?_⟩
    rw [← hmid', List.append_assoc, List.take_append_drop, List.take_append_drop]
  · rintro ⟨s, t, rfl⟩
    rw [matchesTok, List.any_eq_true]
    refine ⟨s.length, ?_, ?_⟩
    · rw [List.mem_range]
      simp [List.length_append]
      omega
    · rw [Bool.and_eq_true]
      refine ⟨nlFree_take _ _ hk, ?_⟩
      rw [List.any_eq_true]
      refine ⟨tok.length, ?_, ?_⟩
      · rw [List.mem_range]
        simp [List.length_append]
        omega
      · have hdrop : (s ++ tok ++ t).drop s.length = tok ++ t := by
          rw [List.append_assoc, List.drop_left]
        rw [Bool.and_eq_true, hdrop, List.take_left, List.drop_left]
        have hk2 := hk
        rw [nlFree, List.append_assoc, List.all_append, Bool.and_eq_true,
          List.all_append, Bool.and_eq_true] at hk2
        exact ⟨tokMatch_refl tok hnd, tailOk_of_nlFree _ hk2.2.2⟩

/-- Witness for the amended C5 at a concrete plain token and key. -/
theorem C5_witness : matchesTok "err".toList "x-error".toList = true :=
  (C5_match_is_substring_for_plain_tokens "err".toList "x-error".toList
    (by decide) (by decide)).mpr (by decide)

/-- Both conjuncts of a true boolean conjunction. -/
theorem bandElim {a b : Bool} (h : (a && b) = true) : a = true ∧ b = true := by
  constructor <;> simp_all

/-- Full characterization of the `find_items` scan: relative to an
incoming best depth bound, either no entry qualifies and the incoming
best value survives, or the scan returns the stringified value of the
first entry attaining the minimal qualifying separator count. -/
theorem findFrom_scan_spec (d : List (PStr × Prim)) :
    ∀ (tok out : PStr) (dep : Option Nat),
      ((∀ kv ∈ d, (matchesTok tok kv.1 && ltDepth (countSep kv.1) dep) = false) →
        findFrom d tok out dep = out) ∧
      (∀ i (hi : i < d.length),
          (matchesTok tok (d.get ⟨i, hi⟩).1 &&
            ltDepth (countSep (d.get ⟨i, hi⟩).1) dep) = true →
        ∃ j, ∃ hj : j < d.length,
          (matchesTok tok (d.get ⟨j, hj⟩).1 &&
            ltDepth (countSep (d.get ⟨j, hj⟩).1) dep) = true ∧
          findFrom d tok out dep = pyStr (d.get ⟨j, hj⟩).2 ∧
          ∀ l (hl : l < d.length),
            (matchesTok tok (d.get ⟨l, hl⟩).1 &&
              ltDepth (countSep (d.get ⟨l, hl⟩).1) dep) = true →
            countSep (d.get ⟨j, hj⟩).1 ≤ countSep (d.get ⟨l, hl⟩).1 ∧
            (countSep (d.get ⟨l, hl⟩).1 = countSep (d.get ⟨j, hj⟩).1 → j ≤ l)) := by
  induction d with
  | nil =>
      intro tok out dep
      exact ⟨fun _ => rfl, fun i hi => by simp at hi⟩
  | cons kv rest ih =>
      intro tok out dep
      obtain ⟨k, v⟩ := kv
      constructor
      · intro hno
        simp only [findFrom]
        rw [if_neg (by simp [hno (k, v) (List.mem_cons_self _ _)])]
        exact (ih tok out dep).1 fun kv' h' => hno kv' (List.mem_cons_of_mem _ h')
      · intro i hi hcand
        simp only [findFrom]
        by_cases hhead : (matchesTok tok k && ltDepth (countSep k) dep) = true
        · rw [if_pos hhead]
          by_cases hrest : ∃ i', ∃ hi' : i' < rest.length,
              (matchesTok tok (rest.get ⟨i', hi'⟩).1 &&
                ltDepth (countSep (rest.get ⟨i', hi'⟩).1) (some (countSep k))) = true
          · obtain ⟨i', hi', hci'⟩ := hrest
            obtain ⟨j', hj', hcj', heq', hmin'⟩ :=
              (ih tok (pyStr v) (some (countSep k))).2 i' hi' hci'
            have hmj' : matchesTok tok (rest.get ⟨j', hj'⟩).1 = true :=
              (bandElim hcj').1
            have hdj' : countSep (rest.get ⟨j', hj'⟩).1 < countSep k := by
              have hb := (bandElim hcj').2
              simpa [ltDepth] using hb
            refine ⟨j' + 1, by simp only [List.length_cons]; omega, ?_, heq', ?_⟩
            · show (matchesTok tok (rest.get ⟨j', hj'⟩).1 &&
                ltDepth (countSep (rest.get ⟨j', hj'⟩).1) dep) = true
              rw [Bool.and_eq_true]
              refine ⟨hmj', ?_⟩
              cases dep with
              | none => rfl
              | some m =>
                  have hcs : countSep k < m := by
                    have hb := (bandElim hhead).2
                    simpa [ltDepth] using hb
                  simp only [ltDepth, decide_eq_true_eq]
                  omega
            · intro l hl hcl
              cases l with
              | zero =>
                  show countSep (rest.get ⟨j', hj'⟩).1 ≤ countSep k ∧
                    (countSep k = countSep (rest.get ⟨j', hj'⟩).1 → j' + 1 ≤ 0)
                  exact ⟨le_of_lt hdj', fun h => by omega⟩
              | succ l' =>
                  have hl' : l' < rest.length := by
                    simp only [List.length_cons] at hl
                    omega
                  have hml' : matchesTok tok (rest.get ⟨l', hl'⟩).1 = true :=
                    (bandElim hcl).1
                  show countSep (rest.get ⟨j', hj'⟩).1 ≤ countSep (rest.get ⟨l', hl'⟩).1 ∧
                    (countSep (rest.get ⟨l', hl'⟩).1 = countSep (rest.get ⟨j', hj'⟩).1 →
                      j' + 1 ≤ l' + 1)
                  by_cases hdl' : countSep (rest.get ⟨l', hl'⟩).1 < countSep k
                  · have hcl' : (matchesTok tok (rest.get ⟨l', hl'⟩).1 &&
                        ltDepth (countSep (rest.get ⟨l', hl'⟩).1) (some (countSep k))) = true := by
                      rw [Bool.and_eq_true]
                      exact ⟨hml', by simp only [ltDepth, decide_eq_true_eq]; exact hdl'⟩
                    have hm := hmin' l' hl' hcl'
                    exact ⟨hm.1, fun h => by have := hm.2 h; omega⟩
                  · push_neg at hdl'
                    exact ⟨by omega, fun h => by omega⟩
          · push_neg at hrest
            have hnone : ∀ kv' ∈ rest, (matchesTok tok kv'.1 &&
                ltDepth (countSep kv'.1) (some (countSep k))) = false := by
              intro kv' hkv'
              obtain ⟨⟨i', hi'⟩, hgi⟩ := List.mem_iff_get.mp hkv'
              rw [← hgi]
              cases hx : (matchesTok tok (rest.get ⟨i', hi'⟩).1 &&
                  ltDepth (countSep (rest.get ⟨i', hi'⟩).1) (some (countSep k))) with
              | false => rfl
              | true => exact absurd hx (hrest i' hi')
            have heq0 := (ih tok (pyStr v) (some (countSep k))).1 hnone
            refine ⟨0, by simp only [List.length_cons]; omega, hhead, heq0, ?_⟩
            intro l hl hcl
            cases l with
            | zero => exact ⟨le_refl _, fun _ => le_refl 0⟩
            | succ l' =>
                have hl' : l' < rest.length := by
                  simp only [List.length_cons] at hl
                  omega
                have hml' : matchesTok tok (rest.get ⟨l', hl'⟩).1 = true :=
                  (bandElim hcl).1
                have hge : countSep k ≤ countSep (rest.get ⟨l', hl'⟩).1 := by
                  by_contra hlt2
                  push_neg at hlt2
                  apply (hrest l' hl')
                  rw [Bool.and_eq_true]
                  exact ⟨hml', by simp only [ltDepth, decide_eq_true_eq]; exact hlt2⟩
                show countSep k ≤ countSep (rest.get ⟨l', hl'⟩).1 ∧
                  (countSep (rest.get ⟨l', hl'⟩).1 = countSep k → 0 ≤ l' + 1)
                exact ⟨hge, fun _ => Nat.zero_le _⟩
        · rw [if_neg hhead]
          cases i with
          | zero => exact absurd hcand hhead
          | succ i' =>
              have hi' : i' < rest.length := by
                simp only [List.length_cons] at hi
                omega
              obtain ⟨j', hj', hcj', heq', hmin'⟩ := (ih tok out dep).2 i' hi' hcand
              refine ⟨j' + 1, by simp only [List.length_cons]; omega, hcj', heq', ?_⟩
              intro l hl hcl
              cases l with
              | zero => exact absurd hcl hhead
              | succ l' =>
                  have hl' : l' < rest.length := by
                    simp only [List.length_cons] at hl
                    omega
                  have hm := hmin' l' hl' hcl
                  exact ⟨hm.1, fun h => by have := hm.2 h; omega⟩

/-- Counterexample to C3 as stated: in the record flattened from a tree
whose first leaf sits under the single (1-segment) key "a-b-owner" and
whose second leaf sits under the 2-segment path x/owner, both keys match
token "owner", yet `find_items` returns the second value: depth is the
count of '-' characters in the flat key (2 versus 1 here), not the number
of path segments (1 versus 2). -/
theorem C3_counterexample :
    leafPaths (J.obj [("a-b-owner".toList, J.leaf (Prim.i 1)),
        ("x".toList, J.obj [("owner".toList, J.leaf (Prim.i 2))])]) =
      [(["a-b-owner".toList], Prim.i 1), (["x".toList, "owner".toList], Prim.i 2)] ∧
    denestTop (J.obj [("a-b-owner".toList, J.leaf (Prim.i 1)),
        ("x".toList, J.obj [("owner".toList, J.leaf (Prim.i 2))])]) =
      [("a-b-owner".toList, Prim.i 1), ("x-owner".toList, Prim.i 2)] ∧
    find_items [("a-b-owner".toList, Prim.i 1), ("x-owner".toList, Prim.i 2)]
        "owner".toList = "2".toList := by
  refine ⟨?_, ?_, by decide⟩
  · simp [leafPaths, lpObj, lpArr]
  · simp [denestTop, dict_denester, denestObj, denestArr, pyAssocUpdate]

/-- C3 (amended): `find_items` returns the value of the matching key with
the smallest number of '-' characters (which equals the number of path
segments minus one exactly when no segment contains the separator); ties
at the same minimal separator count go to the entry encountered first in
the record's order, and when nothing matches the empty-string sentinel is
returned without raising. -/
theorem C3_least_separator_count_wins (d : List (PStr × Prim)) (tok : PStr) :
    ((∀ kv ∈ d, matchesTok tok kv.1 = false) → find_items d tok = []) ∧
    (∀ i (hi : i < d.length), matchesTok tok (d.get ⟨i, hi⟩).1 = true →
      ∃ j, ∃ hj : j < d.length,
        matchesTok tok (d.get ⟨j, hj⟩).1 = true ∧
        find_items d tok = pyStr (d.get ⟨j, hj⟩).2 ∧
        ∀ l (hl : l < d.length), matchesTok tok (d.get ⟨l, hl⟩).1 = true →
          countSep (d.get ⟨j, hj⟩).1 ≤ countSep (d.get ⟨l, hl⟩).1 ∧
          (countSep (d.get ⟨l, hl⟩).1 = countSep (d.get ⟨j, hj⟩).1 → j ≤ l)) := by
  have hs := findFrom_scan_spec d tok [] none
  constructor
  · intro hno
    exact hs.1 fun kv hkv => by rw [hno kv hkv]; rfl
  · intro i hi hm
    have hc : (matchesTok tok (d.get ⟨i, hi⟩).1 &&
        ltDepth (countSep (d.get ⟨i, hi⟩).1) none) = true := by
      rw [hm]
      rfl
    obtain ⟨j, hj, hcj, heqj, hminj⟩ := hs.2 i hi hc
    refine ⟨j, hj, (bandElim hcj).1, heqj, ?_⟩
    intro l hl hml
    refine hminj l hl ?_
    rw [hml]
    rfl

/-- Witness for the amended C3: with matches at 2 and 4 path segments
(separator counts 1 and 3), the 2-segment entry's value is returned. -/
theorem C3_witness :
    find_items [("a-owner".toList, Prim.i 1), ("b-c-d-owner".toList, Prim.i 2)]
      "owner".toList = "1".toList := by
  obtain ⟨j, hj, hcj, heqj, hminj⟩ :=
    (C3_least_separator_count_wins
      [("a-owner".toList, Prim.i 1), ("b-c-d-owner".toList, Prim.i 2)]
      "owner".toList).2 0 (by simp) (by decide)
  have hj2 : j < 2 := by simpa using hj
  cases j with
  | zero =>
      rw [heqj]
      show pyStr (Prim.i 1) = "1".toList
      decide
  | succ j' =>
      have hj0 : j' = 0 := by omega
      subst hj0
      have hmin := (hminj 0 (by simp) (by decide)).1
      have hmin2 : countSep "b-c-d-owner".toList ≤ countSep "a-owner".toList := hmin
      exact absurd hmin2 (by decide)

/-! ## Decimal rendering and separator-splitting lemmas -/

/-- Appending one digit multiplies the decoded value by ten. -/
theorem charsToNat_append_singleton (l : List Char) (c : Char) :
    charsToNat (l ++ [c]) = 10 * charsToNat l + (c.toNat - 48) := by
  unfold charsToNat
  rw [List.foldl_append]
  rfl

/-- With enough fuel, `natCharsAux` renders a decodable, nonempty,
all-digit string. -/
theorem natCharsAux_spec :
    ∀ fuel n, 0 < fuel → n < 10 ^ fuel →
      charsToNat (natCharsAux fuel n) = n ∧ natCharsAux fuel n ≠ [] ∧
      ∀ c ∈ natCharsAux fuel n, c.isDigit = true := by
  intro fuel
  induction fuel with
  | zero => intro n h; omega
  | succ fuel ih =>
      intro n _ hn
      by_cases h10 : n < 10
      · have hres : natCharsAux (fuel + 1) n = [Char.ofNat (48 + n)] := by
          unfold natCharsAux
          rw [if_pos h10]
        rw [hres]
        interval_cases n <;> exact ⟨by decide, by decide, by decide⟩
      · have hfuel1 : 0 < fuel := by
          rcases Nat.eq_zero_or_pos fuel with h0 | h0
          · subst h0
            simp at hn
            omega
          · exact h0
        have hdiv : n / 10 < 10 ^ fuel := by
          rw [pow_succ] at hn
          exact Nat.div_lt_of_lt_mul (by omega)
        obtain ⟨ihv, ihne, ihd⟩ := ih (n / 10) hfuel1 hdiv
        have hres : natCharsAux (fuel + 1) n =
            natCharsAux fuel (n / 10) ++ [Char.ofNat (48 + n % 10)] := by
          rw [show natCharsAux (fuel + 1) n =
            (if n < 10 then [Char.ofNat (48 + n)]
              else natCharsAux fuel (n / 10) ++ [Char.ofNat (48 + n % 10)]) from rfl]
          rw [if_neg h10]
        have hm10 : n % 10 < 10 := Nat.mod_lt _ (by omega)
        have hdig : (Char.ofNat (48 + n % 10)).toNat = 48 + n % 10 ∧
            (Char.ofNat (48 + n % 10)).isDigit = true := by
          set m := n % 10 with hm
          clear_value m
          interval_cases m <;> exact ⟨by decide, by decide⟩
        rw [hres]
        refine ⟨?_, by simp, ?_⟩
        · rw [charsToNat_append_singleton, ihv, hdig.1]
          omega
        · intro c hc
          rcases List.mem_append.mp hc with h | h
          · exact ihd c h
          · simp at h
            rw [h]
            exact hdig.2

/-- `natChars` decodes to its argument. -/
theorem charsToNat_natChars (n : Nat) : charsToNat (natChars n) = n := by
  have h := natCharsAux_spec (n + 1) n (by omega) (by
    calc n < 10 ^ n := Nat.lt_pow_self (by omega) n
    _ ≤ 10 ^ (n + 1) := Nat.pow_le_pow_right (by omega) (by omega))
  exact h.1

/-- `natChars` facts: nonempty and all digits. -/
theorem natChars_spec (n : Nat) :
    natChars n ≠ [] ∧ ∀ c ∈ natChars n, c.isDigit = true := by
  have h := natCharsAux_spec (n + 1) n (by omega) (by
    calc n < 10 ^ n := Nat.lt_pow_self (by omega) n
    _ ≤ 10 ^ (n + 1) := Nat.pow_le_pow_right (by omega) (by omega))
  exact ⟨h.2.1, h.2.2⟩

/-- Decimal renderings of distinct numbers differ. -/
theorem natChars_inj {m n : Nat} (h : natChars m = natChars n) : m = n := by
  have hm := charsToNat_natChars m
  have hn := charsToNat_natChars n
  rw [← hm, ← hn, h]

/-- A digit character is not the separator. -/
theorem isDigit_ne_sep {c : Char} (h : c.isDigit = true) : ¬ c = '-' := by
  intro hc
  rw [hc] at h
  exact absurd h (by decide)

/-- Index names contain no separator. -/
theorem natChars_no_sep (n : Nat) : '-' ∉ natChars n := by
  intro hmem
  exact isDigit_ne_sep ((natChars_spec n).2 '-' hmem) rfl

/-- `splitDash` never returns the empty list. -/
theorem splitDash_ne_nil (s : PStr) : splitDash s ≠ [] := by
  induction s with
  | nil => simp [splitDash]
  | cons c rest ih =>
      simp only [splitDash]
      split
      · simp
      · cases hs : splitDash rest with
        | nil => exact absurd hs ih
        | cons h0 t0 => simp

/-- Splitting after a separator-free prefix extends the first segment. -/
theorem splitDash_append_seg (q : PStr) (hq : '-' ∉ q) (t : PStr) :
    splitDash (q ++ t) = (q ++ (splitDash t).headD []) :: (splitDash t).tail := by
  induction q with
  | nil =>
      cases hs : splitDash t with
      | nil => exact absurd hs (splitDash_ne_nil t)
      | cons h0 t0 => simp [hs]
  | cons c q' ih =>
      have hc : ¬ c = '-' := fun h => hq (h ▸ List.mem_cons_self _ _)
      have hq' : '-' ∉ q' := fun h => hq (List.mem_cons_of_mem _ h)
      simp only [List.cons_append, splitDash, if_neg hc, List.append_eq]
      rw [ih hq']
      simp

/-- Splitting the name accumulator of a separator-free path recovers the
path behind an initial empty segment. -/
theorem splitDash_nameOf (q : List PStr) (hq : ∀ s ∈ q, '-' ∉ s) :
    splitDash (nameOf q) = [] :: q := by
  induction q with
  | nil => rfl
  | cons s q' ih =>
      have hs : '-' ∉ s := hq s (List.mem_cons_self _ _)
      have hq' : ∀ s' ∈ q', '-' ∉ s' := fun s' h => hq s' (List.mem_cons_of_mem _ h)
      show splitDash ('-' :: (s ++ nameOf q')) = [] :: s :: q'
      simp only [splitDash, if_pos rfl]
      rw [splitDash_append_seg s hs, ih hq']
      simp

/-- Splitting a flat key of a nonempty separator-free path recovers the
path: `splitDash` is a left inverse of `pathKey`. -/
theorem splitDash_pathKey (q : List PStr) (hne : q ≠ [])
    (hq : ∀ s ∈ q, '-' ∉ s) : splitDash (pathKey q) = q := by
  cases q with
  | nil => exact absurd rfl hne
  | cons s q' =>
      have hs : '-' ∉ s := hq s (List.mem_cons_self _ _)
      have hq' : ∀ s' ∈ q', '-' ∉ s' := fun s' h => hq s' (List.mem_cons_of_mem _ h)
      show splitDash (('-' :: (s ++ nameOf q')).drop 1) = s :: q'
      rw [List.drop_one, List.tail_cons, splitDash_append_seg s hs, splitDash_nameOf q' hq']
      simp

/-- `pathKey` is injective on nonempty separator-free paths. -/
theorem pathKey_inj (q1 q2 : List PStr) (h1 : q1 ≠ []) (h2 : q2 ≠ [])
    (hs1 : ∀ s ∈ q1, '-' ∉ s) (hs2 : ∀ s ∈ q2, '-' ∉ s)
    (h : pathKey q1 = pathKey q2) : q1 = q2 := by
  have e1 := splitDash_pathKey q1 h1 hs1
  have e2 := splitDash_pathKey q2 h2 hs2
  rw [← e1, ← e2, h]

/-- The name accumulator distributes over path concatenation. -/
theorem nameOf_append (p q : List PStr) : nameOf (p ++ q) = nameOf p ++ nameOf q := by
  unfold nameOf
  rw [List.flatMap_append]

/-- The key emitted for a child of an object: extending the name by the
child key and dropping the sentinel yields the serialized extended path. -/
theorem emission_key (P : List PStr) (k : PStr) :
    (nameOf P ++ '-' :: k).drop 1 = pathKey (P ++ [k]) := by
  unfold pathKey
  rw [show nameOf P ++ '-' :: k = nameOf (P ++ [k]) by
    rw [nameOf_append]; simp [nameOf]]
  rfl

/-! ## Structural lemmas for the flattening proofs -/

/-- Extract per-child facts from `gkObj`. -/
theorem gkObj_mem : ∀ (kvs : List (PStr × J)), gkObj kvs = true →
    ∀ kv ∈ kvs, '-' ∉ kv.1 ∧ goodKeys kv.2 = true := by
  intro kvs
  induction kvs with
  | nil => intro _ kv h; simp at h
  | cons kv0 rest ih =>
      intro hg kv hkv
      obtain ⟨k0, v0⟩ := kv0
      rw [show gkObj ((k0, v0) :: rest) =
        (!k0.contains '-' && goodKeys v0 && gkObj rest) from rfl] at hg
      obtain ⟨h12, h3⟩ := bandElim hg
      obtain ⟨h1, h2⟩ := bandElim h12
      rcases List.mem_cons.mp hkv with h | h
      · subst h
        refine ⟨?_, h2⟩
        intro hmem
        simp at h1
        exact h1 hmem
      · exact ih h3 kv h

/-- Extract per-element facts from `gkArr`. -/
theorem gkArr_mem : ∀ (items : List J), gkArr items = true →
    ∀ x ∈ items, goodKeys x = true := by
  intro items
  induction items with
  | nil => intro _ x h; simp at h
  | cons x0 rest ih =>
      intro hg x hx
      rw [show gkArr (x0 :: rest) = (goodKeys x0 && gkArr rest) from rfl] at hg
      obtain ⟨h1, h2⟩ := bandElim hg
      rcases List.mem_cons.mp hx with h | h
      · subst h; exact h1
      · exact ih h2 x h

/-- Extract per-child facts from `roObj`. -/
theorem roObj_mem : ∀ (kvs : List (PStr × J)), roObj kvs = true →
    ∀ kv ∈ kvs, kv.1.any (fun c => !c.isDigit) = true ∧ renestOk kv.2 = true := by
  intro kvs
  induction kvs with
  | nil => intro _ kv h; simp at h
  | cons kv0 rest ih =>
      intro hg kv hkv
      obtain ⟨k0, v0⟩ := kv0
      rw [show roObj ((k0, v0) :: rest) =
        (k0.any (fun c => !c.isDigit) && renestOk v0 && roObj rest) from rfl] at hg
      obtain ⟨h12, h3⟩ := bandElim hg
      obtain ⟨h1, h2⟩ := bandElim h12
      rcases List.mem_cons.mp hkv with h | h
      · subst h; exact ⟨h1, h2⟩
      · exact ih h3 kv h

/-- Extract per-element facts from `roArr`. -/
theorem roArr_mem : ∀ (items : List J), roArr items = true →
    ∀ x ∈ items, renestOk x = true := by
  intro items
  induction items with
  | nil => intro _ x h; simp at h
  | cons x0 rest ih =>
      intro hg x hx
      rw [show roArr (x0 :: rest) = (renestOk x0 && roArr rest) from rfl] at hg
      obtain ⟨h1, h2⟩ := bandElim hg
      rcases List.mem_cons.mp hx with h | h
      · subst h; exact h1
      · exact ih h2 x h

/-- Children of an object are at most as deep as the object's child bound. -/
theorem dObj_mem : ∀ (kvs : List (PStr × J)), ∀ kv ∈ kvs, depthJ kv.2 ≤ dObj kvs := by
  intro kvs
  induction kvs with
  | nil => intro kv h; simp at h
  | cons kv0 rest ih =>
      intro kv hkv
      obtain ⟨k0, v0⟩ := kv0
      rw [show dObj ((k0, v0) :: rest) = max (depthJ v0) (dObj rest) from rfl]
      rcases List.mem_cons.mp hkv with h | h
      · subst h; exact le_max_left _ _
      · exact le_trans (ih kv h) (le_max_right _ _)

/-- Elements of an array are at most as deep as the array's child bound. -/
theorem dArr_mem : ∀ (items : List J), ∀ x ∈ items, depthJ x ≤ dArr items := by
  intro items
  induction items with
  | nil => intro x h; simp at h
  | cons x0 rest ih =>
      intro x hx
      rw [show dArr (x0 :: rest) = max (depthJ x0) (dArr rest) from rfl]
      rcases List.mem_cons.mp hx with h | h
      · subst h; exact le_max_left _ _
      · exact le_trans (ih x h) (le_max_right _ _)

/-- Every entry of `lpObj` extends the path of a leaf of some child with
that child's key. -/
theorem lpObj_shape : ∀ (kvs : List (PStr × J)), ∀ e ∈ lpObj kvs,
    ∃ kv ∈ kvs, ∃ e', e' ∈ leafPaths kv.2 ∧ e = (kv.1 :: e'.1, e'.2) := by
  intro kvs
  induction kvs with
  | nil => intro e h; simp [lpObj] at h
  | cons kv0 rest ih =>
      intro e he
      obtain ⟨k0, v0⟩ := kv0
      rw [show lpObj ((k0, v0) :: rest) =
        (leafPaths v0).map (fun e => (k0 :: e.1, e.2)) ++ lpObj rest from rfl] at he
      rcases List.mem_append.mp he with h | h
      · obtain ⟨e', he', heq⟩ := List.mem_map.mp h
        exact ⟨(k0, v0), List.mem_cons_self _ _, e', he', heq.symm⟩
      · obtain ⟨kv, hkv, e', he', heq⟩ := ih e h
        exact ⟨kv, List.mem_cons_of_mem _ hkv, e', he', heq⟩

/-- Every entry of `lpArr` extends the path of a leaf of some element with
a decimal index at least the starting index. -/
theorem lpArr_shape : ∀ (items : List J) (i : Nat), ∀ e ∈ lpArr items i,
    ∃ i', i ≤ i' ∧ ∃ x ∈ items, ∃ e', e' ∈ leafPaths x ∧
      e = (natChars i' :: e'.1, e'.2) := by
  intro items
  induction items with
  | nil => intro i e h; simp [lpArr] at h
  | cons x0 rest ih =>
      intro i e he
      rw [show lpArr (x0 :: rest) i =
        (leafPaths x0).map (fun e => (natChars i :: e.1, e.2)) ++ lpArr rest (i + 1) from rfl] at he
      rcases List.mem_append.mp he with h | h
      · obtain ⟨e', he', heq⟩ := List.mem_map.mp h
        exact ⟨i, le_refl _, x0, List.mem_cons_self _ _, e', he', heq.symm⟩
      · obtain ⟨i', hi', x, hx, e', he', heq⟩ := ih (i + 1) e h
        exact ⟨i', by omega, x, List.mem_cons_of_mem _ hx, e', he', heq⟩

/-- Under `goodKeys`, every segment of every leaf path is separator-free
(object keys by assumption, array indices because digits are not '-').
Stated for all three mutual traversals, by strong induction on size. -/
theorem sepfree_master : ∀ n : Nat,
    (∀ j : J, sizeOf j ≤ n → goodKeys j = true →
      ∀ e ∈ leafPaths j, ∀ s ∈ e.1, '-' ∉ s) ∧
    (∀ kvs : List (PStr × J), sizeOf kvs ≤ n → gkObj kvs = true →
      ∀ e ∈ lpObj kvs, ∀ s ∈ e.1, '-' ∉ s) ∧
    (∀ items : List J, sizeOf items ≤ n → gkArr items = true →
      ∀ i : Nat, ∀ e ∈ lpArr items i, ∀ s ∈ e.1, '-' ∉ s) := by
  intro n
  induction n with
  | zero =>
      refine ⟨?_, ?_, ?_⟩
      · intro j hsz
        exfalso
        cases j <;> simp at hsz
      · intro kvs hsz
        exfalso
        cases kvs <;> simp at hsz
      · intro items hsz
        exfalso
        cases items <;> simp at hsz
  | succ n ihn =>
      obtain ⟨ih1, ih2, ih3⟩ := ihn
      refine ⟨?_, ?_, ?_⟩
      · intro j hsz hg e he s hs
        cases j with
        | leaf p =>
            rw [show leafPaths (J.leaf p) = [([], p)] from rfl] at he
            simp at he
            rw [he] at hs
            simp at hs
        | obj kvs =>
            have hsz' : sizeOf kvs ≤ n := by
              simp at hsz
              omega
            rw [show goodKeys (J.obj kvs) =
              (decide ((kvs.map (·.1)).Nodup) && gkObj kvs) from rfl] at hg
            rw [show leafPaths (J.obj kvs) = lpObj kvs from rfl] at he
            exact ih2 kvs hsz' (bandElim hg).2 e he s hs
        | arr items =>
            have hsz' : sizeOf items ≤ n := by
              simp at hsz
              omega
            rw [show goodKeys (J.arr items) = gkArr items from rfl] at hg
            rw [show leafPaths (J.arr items) = lpArr items 0 from rfl] at he
            exact ih3 items hsz' hg 0 e he s hs
      · intro kvs hsz hg e he s hs
        cases kvs with
        | nil =>
            rw [show lpObj ([] : List (PStr × J)) = [] from rfl] at he
            simp at he
        | cons kv0 rest =>
            obtain ⟨k0, v0⟩ := kv0
            rw [show gkObj ((k0, v0) :: rest) =
              (!k0.contains '-' && goodKeys v0 && gkObj rest) from rfl] at hg
            obtain ⟨h12, h3⟩ := bandElim hg
            obtain ⟨h1, h2⟩ := bandElim h12
            rw [show lpObj ((k0, v0) :: rest) =
              (leafPaths v0).map (fun e => (k0 :: e.1, e.2)) ++ lpObj rest from rfl] at he
            have hszv : sizeOf v0 ≤ n := by
              simp at hsz
              omega
            have hszr : sizeOf rest ≤ n := by
              simp at hsz
              omega
            rcases List.mem_append.mp he with h | h
            · obtain ⟨e', he', heq⟩ := List.mem_map.mp h
              rw [← heq] at hs
              rcases List.mem_cons.mp hs with h' | h'
              · subst h'
                intro hmem
                simp at h1
                exact h1 hmem
              · exact ih1 v0 hszv h2 e' he' s h'
            · exact ih2 rest hszr h3 e h s hs
      · intro items hsz hg i e he s hs
        cases items with
        | nil =>
            rw [show lpArr ([] : List J) i = [] from rfl] at he
            simp at he
        | cons x0 rest =>
            rw [show gkArr (x0 :: rest) = (goodKeys x0 && gkArr rest) from rfl] at hg
            obtain ⟨h1, h2⟩ := bandElim hg
            rw [show lpArr (x0 :: rest) i =
              (leafPaths x0).map (fun e => (natChars i :: e.1, e.2)) ++
                lpArr rest (i + 1) from rfl] at he
            have hszv : sizeOf x0 ≤ n := by
              simp at hsz
              omega
            have hszr : sizeOf rest ≤ n := by
              simp at hsz
              omega
            rcases List.mem_append.mp he with h | h
            · obtain ⟨e', he', heq⟩ := List.mem_map.mp h
              rw [← heq] at hs
              rcases List.mem_cons.mp hs with h' | h'
              · subst h'
                exact natChars_no_sep i
              · exact ih1 x0 hszv h1 e' he' s h'
            · exact ih3 rest hszr h2 (i + 1) e h s hs

/-- Separator-freedom of all leaf paths of a well-keyed tree. -/
theorem leafPaths_sepfree (j : J) (hg : goodKeys j = true) :
    ∀ e ∈ leafPaths j, ∀ s ∈ e.1, '-' ∉ s :=
  (sepfree_master (sizeOf j)).1 j (le_refl _) hg

/-- The name accumulator after descending into key `k`. -/
theorem nameOf_snoc (P : List PStr) (k : PStr) :
    nameOf (P ++ [k]) = nameOf P ++ '-' :: k := by
  rw [nameOf_append]
  simp [nameOf]

/-- Reassociating a serialized path around a single descended segment. -/
theorem pathKey_snoc_assoc (P : List PStr) (k : PStr) (rel : List PStr) :
    pathKey ((P ++ [k]) ++ rel) = pathKey (P ++ k :: rel) := by
  rw [List.append_assoc]
  rfl

/-- Separator-freedom extends over a descended segment. -/
theorem sepfree_snoc {P : List PStr} {k : PStr}
    (hP : ∀ s ∈ P, '-' ∉ s) (hk : '-' ∉ k) : ∀ s ∈ P ++ [k], '-' ∉ s := by
  intro s hs
  rcases List.mem_append.mp hs with h | h
  · exact hP s h
  · simp at h
    rw [h]
    exact hk

/-- One object child processed by `denestObj`: the child's flattening
appends exactly its own path-keyed entries, and the remaining siblings
continue on the grown accumulator. -/
theorem denestObj_step
    (n : Nat)
    (IH1 : ∀ j : J, sizeOf j ≤ n → ∀ (P : List PStr) (acc : List (PStr × Prim)),
      goodKeys j = true → (∀ s ∈ P, '-' ∉ s) →
      (∀ e ∈ leafPaths j, ∀ q ∈ acc, q.1 ≠ pathKey (P ++ e.1)) →
      dict_denester j acc (nameOf P) =
        acc ++ (leafPaths j).map (fun e => (pathKey (P ++ e.1), e.2)))
    (IH2 : ∀ (kvs : List (PStr × J)), sizeOf kvs ≤ n →
      ∀ (P : List PStr) (acc : List (PStr × Prim)),
      gkObj kvs = true → (kvs.map (·.1)).Nodup → (∀ s ∈ P, '-' ∉ s) →
      (∀ e ∈ lpObj kvs, ∀ q ∈ acc, q.1 ≠ pathKey (P ++ e.1)) →
      denestObj kvs acc (nameOf P) =
        acc ++ (lpObj kvs).map (fun e => (pathKey (P ++ e.1), e.2)))
    (k0 : PStr) (v0 : J) (rest : List (PStr × J))
    (P : List PStr) (acc : List (PStr × Prim))
    (hszv : sizeOf v0 ≤ n) (hszr : sizeOf rest ≤ n)
    (hg : gkObj ((k0, v0) :: rest) = true)
    (hnd : (((k0, v0) :: rest).map (·.1)).Nodup)
    (hP : ∀ s ∈ P, '-' ∉ s)
    (hfr : ∀ e ∈ lpObj ((k0, v0) :: rest), ∀ q ∈ acc, q.1 ≠ pathKey (P ++ e.1))
    (heq : denestObj ((k0, v0) :: rest) acc (nameOf P) =
      denestObj rest (dict_denester v0 acc (nameOf P ++ '-' :: k0)) (nameOf P)) :
    denestObj ((k0, v0) :: rest) acc (nameOf P) =
      acc ++ (lpObj ((k0, v0) :: rest)).map (fun e => (pathKey (P ++ e.1), e.2)) := by
  rw [show gkObj ((k0, v0) :: rest) =
    (!k0.contains '-' && goodKeys v0 && gkObj rest) from rfl] at hg
  obtain ⟨h12, h3⟩ := bandElim hg
  obtain ⟨h1, h2⟩ := bandElim h12
  have hk0 : '-' ∉ k0 := by
    simp at h1
    exact h1
  have hnd2 : k0 ∉ rest.map (·.1) ∧ (rest.map (·.1)).Nodup := by
    rw [List.map_cons] at hnd
    exact List.nodup_cons.mp hnd
  have hndr := hnd2.2
  have hk0r := hnd2.1
  have hP' : ∀ s ∈ P ++ [k0], '-' ∉ s := sepfree_snoc hP hk0
  have hlp : lpObj ((k0, v0) :: rest) =
      (leafPaths v0).map (fun e => (k0 :: e.1, e.2)) ++ lpObj rest := rfl
  -- freshness of the child's entries with respect to acc
  have hfr1 : ∀ e ∈ leafPaths v0, ∀ q ∈ acc, q.1 ≠ pathKey ((P ++ [k0]) ++ e.1) := by
    intro e he q hq
    rw [pathKey_snoc_assoc]
    have hmem : (k0 :: e.1, e.2) ∈ lpObj ((k0, v0) :: rest) := by
      rw [hlp]
      exact List.mem_append_left _ (List.mem_map_of_mem _ he)
    exact hfr (k0 :: e.1, e.2) hmem q hq
  rw [heq, show nameOf P ++ '-' :: k0 = nameOf (P ++ [k0]) from (nameOf_snoc P k0).symm,
    IH1 v0 hszv (P ++ [k0]) acc h2 hP' hfr1]
  -- the child's entries, reassociated
  have hchild : (leafPaths v0).map (fun e => (pathKey ((P ++ [k0]) ++ e.1), e.2)) =
      (leafPaths v0).map (fun e => (pathKey (P ++ k0 :: e.1), e.2)) :=
    List.map_congr_left fun e _ => by rw [pathKey_snoc_assoc]
  rw [hchild]
  -- freshness for the siblings with respect to the grown accumulator
  have hfr2 : ∀ e ∈ lpObj rest, ∀ q ∈
      acc ++ (leafPaths v0).map (fun e => (pathKey (P ++ k0 :: e.1), e.2)),
      q.1 ≠ pathKey (P ++ e.1) := by
    intro e he q hq
    obtain ⟨⟨k', v'⟩, hkv', e', he', heq'⟩ := lpObj_shape rest e he
    rcases List.mem_append.mp hq with h | h
    · exact hfr e (by rw [hlp]; exact List.mem_append_right _ he) q h
    · obtain ⟨e0, he0, heq0⟩ := List.mem_map.mp h
      rw [← heq0]
      intro hcon
      have hgm' := gkObj_mem _ h3 (k', v') hkv'
      have hsegs1 : ∀ s ∈ P ++ k0 :: e0.1, '-' ∉ s := by
        intro s hs
        rcases List.mem_append.mp hs with hh | hh
        · exact hP s hh
        · rcases List.mem_cons.mp hh with hh' | hh'
          · rw [hh']; exact hk0
          · exact leafPaths_sepfree v0 h2 e0 he0 s hh'
      have hsegs2 : ∀ s ∈ P ++ e.1, '-' ∉ s := by
        intro s hs
        rcases List.mem_append.mp hs with hh | hh
        · exact hP s hh
        · rw [heq'] at hh
          rcases List.mem_cons.mp hh with hh' | hh'
          · rw [hh']; exact hgm'.1
          · exact leafPaths_sepfree v' hgm'.2 e' he' s hh'
      have hpaths := pathKey_inj (P ++ k0 :: e0.1) (P ++ e.1)
        (by simp) (by rw [heq']; simp) hsegs1 hsegs2 hcon
      have hheads : k0 :: e0.1 = e.1 := List.append_cancel_left hpaths
      rw [heq'] at hheads
      have : k0 = k' := by
        injection hheads with hh _
      exact hk0r (this ▸ List.mem_map_of_mem _ hkv')
  rw [IH2 rest hszr P _ h3 hndr hP hfr2, hlp]
  rw [List.map_append, List.map_map]
  have hcomp : ((fun e : List PStr × Prim => (pathKey (P ++ e.1), e.2)) ∘
      fun e : List PStr × Prim => (k0 :: e.1, e.2)) =
      fun e : List PStr × Prim => (pathKey (P ++ k0 :: e.1), e.2) := rfl
  rw [hcomp, List.append_assoc]

/-- One array element processed by `denestArr`: the element's flattening
appends its own path-keyed entries (paths headed by the decimal index)
and the remaining elements continue on the grown accumulator. -/
theorem denestArr_step
    (n : Nat)
    (IH1 : ∀ j : J, sizeOf j ≤ n → ∀ (P : List PStr) (acc : List (PStr × Prim)),
      goodKeys j = true → (∀ s ∈ P, '-' ∉ s) →
      (∀ e ∈ leafPaths j, ∀ q ∈ acc, q.1 ≠ pathKey (P ++ e.1)) →
      dict_denester j acc (nameOf P) =
        acc ++ (leafPaths j).map (fun e => (pathKey (P ++ e.1), e.2)))
    (IH3 : ∀ (items : List J), sizeOf items ≤ n →
      ∀ (i : Nat) (P : List PStr) (acc : List (PStr × Prim)),
      gkArr items = true → (∀ s ∈ P, '-' ∉ s) →
      (∀ e ∈ lpArr items i, ∀ q ∈ acc, q.1 ≠ pathKey (P ++ e.1)) →
      denestArr items i acc (nameOf P) =
        acc ++ (lpArr items i).map (fun e => (pathKey (P ++ e.1), e.2)))
    (x0 : J) (rest : List J) (i : Nat)
    (P : List PStr) (acc : List (PStr × Prim))
    (hszv : sizeOf x0 ≤ n) (hszr : sizeOf rest ≤ n)
    (hg : gkArr (x0 :: rest) = true)
    (hP : ∀ s ∈ P, '-' ∉ s)
    (hfr : ∀ e ∈ lpArr (x0 :: rest) i, ∀ q ∈ acc, q.1 ≠ pathKey (P ++ e.1)) :
    denestArr (x0 :: rest) i acc (nameOf P) =
      acc ++ (lpArr (x0 :: rest) i).map (fun e => (pathKey (P ++ e.1), e.2)) := by
  rw [show gkArr (x0 :: rest) = (goodKeys x0 && gkArr rest) from rfl] at hg
  obtain ⟨h1, h2⟩ := bandElim hg
  have hki : '-' ∉ natChars i := natChars_no_sep i
  have hP' : ∀ s ∈ P ++ [natChars i], '-' ∉ s := sepfree_snoc hP hki
  have hlp : lpArr (x0 :: rest) i =
      (leafPaths x0).map (fun e => (natChars i :: e.1, e.2)) ++ lpArr rest (i + 1) := rfl
  have hfr1 : ∀ e ∈ leafPaths x0, ∀ q ∈ acc,
      q.1 ≠ pathKey ((P ++ [natChars i]) ++ e.1) := by
    intro e he q hq
    rw [pathKey_snoc_assoc]
    have hmem : (natChars i :: e.1, e.2) ∈ lpArr (x0 :: rest) i := by
      rw [hlp]
      exact List.mem_append_left _ (List.mem_map_of_mem _ he)
    exact hfr (natChars i :: e.1, e.2) hmem q hq
  rw [show denestArr (x0 :: rest) i acc (nameOf P) =
      denestArr rest (i + 1) (dict_denester x0 acc (nameOf P ++ '-' :: natChars i))
        (nameOf P) from rfl,
    show nameOf P ++ '-' :: natChars i = nameOf (P ++ [natChars i]) from
      (nameOf_snoc P (natChars i)).symm,
    IH1 x0 hszv (P ++ [natChars i]) acc h1 hP' hfr1]
  have hchild : (leafPaths x0).map (fun e => (pathKey ((P ++ [natChars i]) ++ e.1), e.2)) =
      (leafPaths x0).map (fun e => (pathKey (P ++ natChars i :: e.1), e.2)) :=
    List.map_congr_left fun e _ => by rw [pathKey_snoc_assoc]
  rw [hchild]
  have hfr2 : ∀ e ∈ lpArr rest (i + 1), ∀ q ∈
      acc ++ (leafPaths x0).map (fun e => (pathKey (P ++ natChars i :: e.1), e.2)),
      q.1 ≠ pathKey (P ++ e.1) := by
    intro e he q hq
    obtain ⟨i', hi', x', hx', e', he', heq'⟩ := lpArr_shape rest (i + 1) e he
    rcases List.mem_append.mp hq with h | h
    · have hmem : e ∈ lpArr (x0 :: rest) i := by
        rw [hlp]
        exact List.mem_append_right _ he
      exact hfr e hmem q h
    · obtain ⟨e0, he0, heq0⟩ := List.mem_map.mp h
      rw [← heq0]
      intro hcon
      have hgx' : goodKeys x' = true := gkArr_mem _ h2 x' hx'
      have hsegs1 : ∀ s ∈ P ++ natChars i :: e0.1, '-' ∉ s := by
        intro s hs
        rcases List.mem_append.mp hs with hh | hh
        · exact hP s hh
        · rcases List.mem_cons.mp hh with hh' | hh'
          · rw [hh']; exact hki
          · exact leafPaths_sepfree x0 h1 e0 he0 s hh'
      have hsegs2 : ∀ s ∈ P ++ e.1, '-' ∉ s := by
        intro s hs
        rcases List.mem_append.mp hs with hh | hh
        · exact hP s hh
        · rw [heq'] at hh
          rcases List.mem_cons.mp hh with hh' | hh'
          · rw [hh']; exact natChars_no_sep i'
          · exact leafPaths_sepfree x' hgx' e' he' s hh'
      have hpaths := pathKey_inj (P ++ natChars i :: e0.1) (P ++ e.1)
        (by simp) (by rw [heq']; simp) hsegs1 hsegs2 hcon
      have hheads : natChars i :: e0.1 = e.1 := List.append_cancel_left hpaths
      rw [heq'] at hheads
      have hii : natChars i = natChars i' := by
        injection hheads with hh _
      have := natChars_inj hii
      omega
  rw [IH3 rest hszr (i + 1) P _ h2 hP hfr2, hlp]
  rw [List.map_append, List.map_map]
  have hcomp : ((fun e : List PStr × Prim => (pathKey (P ++ e.1), e.2)) ∘
      fun e : List PStr × Prim => (natChars i :: e.1, e.2)) =
      fun e : List PStr × Prim => (pathKey (P ++ natChars i :: e.1), e.2) := rfl
  rw [hcomp, List.append_assoc]

/-- Master lemma for `dict_denester` on well-keyed trees: starting from an
accumulator whose keys avoid the upcoming entries, flattening appends
exactly one entry per leaf, in traversal order, keyed by the serialized
path from the root prefix `P`. -/
theorem denest_master : ∀ n : Nat,
    (∀ j : J, sizeOf j ≤ n → ∀ (P : List PStr) (acc : List (PStr × Prim)),
      goodKeys j = true → (∀ s ∈ P, '-' ∉ s) →
      (∀ e ∈ leafPaths j, ∀ q ∈ acc, q.1 ≠ pathKey (P ++ e.1)) →
      dict_denester j acc (nameOf P) =
        acc ++ (leafPaths j).map (fun e => (pathKey (P ++ e.1), e.2))) ∧
    (∀ (kvs : List (PStr × J)), sizeOf kvs ≤ n →
      ∀ (P : List PStr) (acc : List (PStr × Prim)),
      gkObj kvs = true → (kvs.map (·.1)).Nodup → (∀ s ∈ P, '-' ∉ s) →
      (∀ e ∈ lpObj kvs, ∀ q ∈ acc, q.1 ≠ pathKey (P ++ e.1)) →
      denestObj kvs acc (nameOf P) =
        acc ++ (lpObj kvs).map (fun e => (pathKey (P ++ e.1), e.2))) ∧
    (∀ (items : List J), sizeOf items ≤ n →
      ∀ (i : Nat) (P : List PStr) (acc : List (PStr × Prim)),
      gkArr items = true → (∀ s ∈ P, '-' ∉ s) →
      (∀ e ∈ lpArr items i, ∀ q ∈ acc, q.1 ≠ pathKey (P ++ e.1)) →
      denestArr items i acc (nameOf P) =
        acc ++ (lpArr items i).map (fun e => (pathKey (P ++ e.1), e.2))) := by
  intro n
  induction n with
  | zero =>
      refine ⟨?_, ?_, ?_⟩
      · intro j hsz
        exfalso
        cases j <;> simp at hsz
      · intro kvs hsz
        exfalso
        cases kvs <;> simp at hsz
      · intro items hsz
        exfalso
        cases items <;> simp at hsz
  | succ n ihn =>
      obtain ⟨ih1, ih2, ih3⟩ := ihn
      refine ⟨?_, ?_, ?_⟩
      · intro j hsz P acc hg hP hfr
        cases j with
        | leaf p =>
            rw [show dict_denester (J.leaf p) acc (nameOf P) =
              pyAssocUpdate acc ((nameOf P).drop 1) p from rfl]
            rw [show (nameOf P).drop 1 = pathKey P from rfl]
            rw [show leafPaths (J.leaf p) = [([], p)] from rfl]
            have hfr0 : ∀ q ∈ acc, q.1 ≠ pathKey P := by
              intro q hq
              have := hfr ([], p) (by rw [show leafPaths (J.leaf p) = [([], p)] from rfl]; simp) q hq
              simpa using this
            rw [pyAssocUpdate_fresh acc _ p hfr0]
            simp
        | obj kvs =>
            have hsz' : sizeOf kvs ≤ n := by
              simp at hsz
              omega
            rw [show goodKeys (J.obj kvs) =
              (decide ((kvs.map (·.1)).Nodup) && gkObj kvs) from rfl] at hg
            obtain ⟨hnd, hgo⟩ := bandElim hg
            rw [show dict_denester (J.obj kvs) acc (nameOf P) =
              denestObj kvs acc (nameOf P) from rfl]
            rw [show leafPaths (J.obj kvs) = lpObj kvs from rfl] at hfr ⊢
            exact ih2 kvs hsz' P acc hgo (of_decide_eq_true hnd) hP hfr
        | arr items =>
            have hsz' : sizeOf items ≤ n := by
              simp at hsz
              omega
            rw [show goodKeys (J.arr items) = gkArr items from rfl] at hg
            rw [show dict_denester (J.arr items) acc (nameOf P) =
              denestArr items 0 acc (nameOf P) from rfl]
            rw [show leafPaths (J.arr items) = lpArr items 0 from rfl] at hfr ⊢
            exact ih3 items hsz' 0 P acc hg hP hfr
      · intro kvs hsz P acc hg hnd hP hfr
        cases kvs with
        | nil =>
            rw [show denestObj ([] : List (PStr × J)) acc (nameOf P) = acc from rfl,
              show lpObj ([] : List (PStr × J)) = [] from rfl]
            simp
        | cons kv0 rest =>
            obtain ⟨k0, v0⟩ := kv0
            have hszv : sizeOf v0 ≤ n := by
              simp at hsz
              omega
            have hszr : sizeOf rest ≤ n := by
              simp at hsz
              omega
            cases v0 with
            | leaf p =>
                exact denestObj_step n ih1 ih2 k0 (J.leaf p) rest P acc hszv hszr
                  hg hnd hP hfr rfl
            | obj kvs' =>
                exact denestObj_step n ih1 ih2 k0 (J.obj kvs') rest P acc hszv hszr
                  hg hnd hP hfr rfl
            | arr items' =>
                exact denestObj_step n ih1 ih2 k0 (J.arr items') rest P acc hszv hszr
                  hg hnd hP hfr rfl
      · intro items hsz i P acc hg hP hfr
        cases items with
        | nil =>
            rw [show denestArr ([] : List J) i acc (nameOf P) = acc from rfl,
              show lpArr ([] : List J) i = [] from rfl]
            simp
        | cons x0 rest =>
            have hszv : sizeOf x0 ≤ n := by
              simp at hsz
              omega
            have hszr : sizeOf rest ≤ n := by
              simp at hsz
              omega
            exact denestArr_step n ih1 ih3 x0 rest i P acc hszv hszr hg hP hfr

/-- Top-level corollary of the master lemma: on a well-keyed tree the
flat record is exactly one entry per leaf, in traversal order, keyed by
the '-'-serialized path. -/
theorem denestTop_eq (j : J) (hg : goodKeys j = true) :
    denestTop j = (leafPaths j).map (fun e => (pathKey e.1, e.2)) := by
  have h := (denest_master (sizeOf j)).1 j (le_refl _) [] [] hg (by simp) (by simp)
  simpa [denestTop, nameOf] using h

/-- Counterexample to C2 as stated: the tree has two leaf scalars, but
because paths are joined into a single '-'-separated string, the leaf at
the one-segment key "a-b" and the leaf at the two-segment path a/b
collide, and the second overwrites the first: the record keeps a single
entry, so one leaf is lost (merged). -/
theorem C2_counterexample :
    denestTop (J.obj [("a-b".toList, J.leaf (Prim.i 1)),
        ("a".toList, J.obj [("b".toList, J.leaf (Prim.i 2))])]) =
      [("a-b".toList, Prim.i 2)] ∧
    (leafPaths (J.obj [("a-b".toList, J.leaf (Prim.i 1)),
        ("a".toList, J.obj [("b".toList, J.leaf (Prim.i 2))])])).length = 2 := by
  constructor
  · simp [denestTop, dict_denester, denestObj, denestArr, pyAssocUpdate]
  · simp [leafPaths, lpObj, lpArr]

/-- Splitting the recorded keys of the flat record of a well-keyed tree
whose leaves all lie below the root recovers the structured leaf paths. -/
theorem denestTop_split (j : J) (hg : goodKeys j = true)
    (hne : ∀ e ∈ leafPaths j, e.1 ≠ []) :
    (denestTop j).map (fun q => (splitDash q.1, q.2)) = leafPaths j := by
  rw [denestTop_eq j hg, List.map_map]
  have hcomp : ((fun q : PStr × Prim => (splitDash q.1, q.2)) ∘
      fun e : List PStr × Prim => (pathKey e.1, e.2)) =
      fun e : List PStr × Prim => (splitDash (pathKey e.1), e.2) := rfl
  rw [hcomp]
  calc (leafPaths j).map (fun e => (splitDash (pathKey e.1), e.2))
      = (leafPaths j).map id := List.map_congr_left (fun e he => by
        rw [splitDash_pathKey e.1 (hne e he) (leafPaths_sepfree j hg e he)]
        rfl)
    _ = leafPaths j := List.map_id _

/-- C2 (amended): provided no object key contains the separator '-' and
sibling keys are duplicate-free, flattening emits exactly one entry per
leaf scalar, in traversal order, keyed by the '-'-join of its path — so no
entry is dropped, duplicated or merged and nothing is emitted for
intermediate objects or arrays — and (for trees whose leaves all sit below
the root, i.e. every leaf path is nonempty) splitting each recorded key on
the separator reconstructs the exact sequence of keys and indices from
the root to the leaf. -/
theorem C2_flatten_exact (j : J) (hg : goodKeys j = true) :
    denestTop j = (leafPaths j).map (fun e => (pathKey e.1, e.2)) ∧
    ((∀ e ∈ leafPaths j, e.1 ≠ []) →
      (denestTop j).map (fun q => (splitDash q.1, q.2)) = leafPaths j) :=
  ⟨denestTop_eq j hg, fun hne => denestTop_split j hg hne⟩

/-- Witness for the amended C2 at a concrete mixed tree. -/
theorem C2_witness :
    goodKeys (J.obj [("a".toList, J.arr [J.leaf (Prim.i 1),
      J.obj [("b".toList, J.leaf (Prim.s "x".toList))]])]) = true ∧
    denestTop (J.obj [("a".toList, J.arr [J.leaf (Prim.i 1),
      J.obj [("b".toList, J.leaf (Prim.s "x".toList))]])]) =
      (leafPaths (J.obj [("a".toList, J.arr [J.leaf (Prim.i 1),
        J.obj [("b".toList, J.leaf (Prim.s "x".toList))]])])).map
        (fun e => (pathKey e.1, e.2)) := by
  have hg : goodKeys (J.obj [("a".toList, J.arr [J.leaf (Prim.i 1),
      J.obj [("b".toList, J.leaf (Prim.s "x".toList))]])]) = true := by
    simp [goodKeys, gkObj, gkArr]
  exact ⟨hg, (C2_flatten_exact _ hg).1⟩

/-! ## Re-nesting machinery (round-trip claim) -/

/-- One-step unfolding of `chunkBy` on a cons cell. -/
theorem chunkBy_cons_eq {α β : Type} [DecidableEq β] (f : α → β) (x : α) (xs : List α) :
    chunkBy f (x :: xs) =
      match chunkBy f xs with
      | [] => [[x]]
      | [] :: rest => [x] :: [] :: rest
      | (y :: ys) :: rest =>
          if f x = f y then (x :: y :: ys) :: rest else [x] :: (y :: ys) :: rest := rfl

/-- A nonempty run with a constant image forms a single chunk. -/
theorem chunkBy_const {α β : Type} [DecidableEq β] (f : α → β) :
    ∀ b : List α, b ≠ [] → (∀ x ∈ b, ∀ y ∈ b, f x = f y) → chunkBy f b = [b] := by
  intro b
  induction b with
  | nil => intro h; exact absurd rfl h
  | cons x xs ih =>
      intro _ hconst
      cases xs with
      | nil => rfl
      | cons y ys =>
          have hys := ih (by simp) (fun a ha b hb =>
            hconst a (List.mem_cons_of_mem _ ha) b (List.mem_cons_of_mem _ hb))
          rw [chunkBy_cons_eq, hys]
          have hxy : f x = f y := hconst x (by simp) y (by simp)
          simp [hxy]

/-- Prepending a constant-image nonempty run whose image differs from the
head of the remainder adds exactly one chunk. -/
theorem chunkBy_append {α β : Type} [DecidableEq β] (f : α → β) (v : β) :
    ∀ (b t : List α), b ≠ [] → (∀ x ∈ b, f x = v) →
      (chunkBy f t = [] ∨ ∃ z zs rest, chunkBy f t = (z :: zs) :: rest ∧ ¬ f z = v) →
      chunkBy f (b ++ t) = b :: chunkBy f t := by
  intro b
  induction b with
  | nil => intro t h; exact absurd rfl h
  | cons x xs ih =>
      intro t _ hconst ht
      cases xs with
      | nil =>
          rw [List.singleton_append, chunkBy_cons_eq]
          rcases ht with h | ⟨z, zs, rest, hz, hne⟩
          · rw [h]
          · rw [hz]
            have hx : f x = v := hconst x (by simp)
            have : ¬ f x = f z := by
              rw [hx]
              intro hc
              exact hne hc.symm
            simp [this]
      | cons y ys =>
          have hrec := ih t (by simp)
            (fun a ha => hconst a (List.mem_cons_of_mem _ ha)) ht
          rw [List.cons_append, chunkBy_cons_eq, hrec]
          have hxy : f x = f y := by
            rw [hconst x (by simp), hconst y (by simp)]
          simp [hxy]

/-- Concatenating nonempty constant-image runs with pairwise-distinct
adjacent images chunks back into exactly those runs. -/
theorem chunkBy_flatten {α β : Type} [DecidableEq β] (f : α → β) :
    ∀ blocks : List (List α),
      (∀ b ∈ blocks, b ≠ []) →
      (∀ b ∈ blocks, ∀ x ∈ b, ∀ y ∈ b, f x = f y) →
      blocks.Chain' (fun b1 b2 => ∀ x ∈ b1, ∀ y ∈ b2, f x ≠ f y) →
      chunkBy f (blocks.flatMap id) = blocks := by
  intro blocks
  induction blocks with
  | nil => intro _ _ _; rfl
  | cons b bs ih =>
      intro h1 h2 h3
      rw [List.flatMap_cons]
      show chunkBy f (b ++ bs.flatMap id) = b :: bs
      have hbne : b ≠ [] := h1 b (by simp)
      obtain ⟨x0, xrest, hb0⟩ := List.exists_cons_of_ne_nil hbne
      have hrest : chunkBy f (bs.flatMap id) = bs := by
        refine ih (fun c hc => h1 c (List.mem_cons_of_mem _ hc))
          (fun c hc => h2 c (List.mem_cons_of_mem _ hc)) ?_
        exact (List.chain'_cons'.mp        h3).2
      have hbv : ∀ x ∈ b, f x = f x0 := by
        intro x hx
        exact h2 b (by simp) x hx x0 (by rw [hb0]; simp)
      rw [chunkBy_append f (f x0) b (bs.flatMap id) hbne hbv ?_, hrest]
      cases bs with
      | nil =>
          left
          rfl
      | cons b2 brest =>
          right
          have hb2ne : b2 ≠ [] := h1 b2 (by simp)
          obtain ⟨z0, zrest, hb20⟩ := List.exists_cons_of_ne_nil hb2ne
          refine ⟨z0, zrest, brest, ?_, ?_⟩
          · rw [hrest, hb20]
          · have hadj := (List.chain'_cons.mp h3).1
            intro hc
            exact hadj x0 (by rw [hb0]; simp) z0 (by rw [hb20]; simp) hc.symm

/-- Leaves of a nonempty-composite tree form a nonempty record. -/
theorem leafPaths_ne_nil_master : ∀ n : Nat, ∀ j : J, sizeOf j ≤ n →
    renestOk j = true → leafPaths j ≠ [] := by
  intro n
  induction n with
  | zero =>
      intro j hsz
      exfalso
      cases j <;> simp at hsz
  | succ n ih =>
      intro j hsz hr
      cases j with
      | leaf p => simp [show leafPaths (J.leaf p) = [([], p)] from rfl]
      | obj kvs =>
          cases kvs with
          | nil =>
              rw [show renestOk (J.obj []) =
                (!(List.isEmpty ([] : List (PStr × J))) && roObj []) from rfl] at hr
              simp at hr
          | cons kv0 rest =>
              obtain ⟨k0, v0⟩ := kv0
              rw [show renestOk (J.obj ((k0, v0) :: rest)) =
                (!(List.isEmpty ((k0, v0) :: rest)) && roObj ((k0, v0) :: rest)) from rfl] at hr
              have hro := (bandElim hr).2
              have hv0 : renestOk v0 = true := (roObj_mem _ hro (k0, v0) (by simp)).2
              have hszv : sizeOf v0 ≤ n := by
                simp at hsz
                omega
              rw [show leafPaths (J.obj ((k0, v0) :: rest)) =
                (leafPaths v0).map (fun e => (k0 :: e.1, e.2)) ++ lpObj rest from rfl]
              intro hcon
              have hmap := (List.append_eq_nil.mp hcon).1
              rw [List.map_eq_nil_iff] at hmap
              exact ih v0 hszv hv0 hmap
      | arr items =>
          cases items with
          | nil =>
              rw [show renestOk (J.arr []) =
                (!(List.isEmpty ([] : List J)) && roArr []) from rfl] at hr
              simp at hr
          | cons x0 rest =>
              rw [show renestOk (J.arr (x0 :: rest)) =
                (!(List.isEmpty (x0 :: rest)) && roArr (x0 :: rest)) from rfl] at hr
              have hro := (bandElim hr).2
              have hv0 : renestOk x0 = true := roArr_mem _ hro x0 (by simp)
              have hszv : sizeOf x0 ≤ n := by
                simp at hsz
                omega
              rw [show leafPaths (J.arr (x0 :: rest)) =
                (leafPaths x0).map (fun e => (natChars 0 :: e.1, e.2)) ++
                  lpArr rest 1 from rfl]
              intro hcon
              have hmap := (List.append_eq_nil.mp hcon).1
              rw [List.map_eq_nil_iff] at hmap
              exact ih x0 hszv hv0 hmap

/-- Leaves of a renestable tree form a nonempty record. -/
theorem leafPaths_nonempty (j : J) (hr : renestOk j = true) : leafPaths j ≠ [] :=
  leafPaths_ne_nil_master (sizeOf j) j (le_refl _) hr

/-- Paths of object-rooted leaves are nonempty. -/
theorem lpObj_paths_ne_nil (kvs : List (PStr × J)) : ∀ e ∈ lpObj kvs, e.1 ≠ [] := by
  intro e he
  obtain ⟨kv, _, e', _, heq⟩ := lpObj_shape kvs e he
  rw [heq]
  simp

/-- Paths of array-rooted leaves are nonempty. -/
theorem lpArr_paths_ne_nil (items : List J) (i : Nat) : ∀ e ∈ lpArr items i, e.1 ≠ [] := by
  intro e he
  obtain ⟨i', _, x, _, e', _, heq⟩ := lpArr_shape items i e he
  rw [heq]
  simp

/-- One-step unfolding of `unflatten` on an entry list whose first path is
nonempty (the single-leaf pattern cannot fire). -/
theorem unflatten_cons_cons (fuel : Nat) (seg : PStr) (segs : List PStr) (v : Prim)
    (es : List (List PStr × Prim)) :
    unflatten (fuel + 1) ((seg :: segs, v) :: es) =
      (if seg ≠ [] ∧ seg.all (·.isDigit) then
        J.arr ((chunkBy (fun e => e.1.headD ([] : PStr)) ((seg :: segs, v) :: es)).map
          fun b => unflatten fuel (b.map fun e => (e.1.drop 1, e.2)))
      else
        J.obj ((chunkBy (fun e => e.1.headD ([] : PStr)) ((seg :: segs, v) :: es)).map
          fun b => ((b.headD ([], Prim.null)).1.headD [],
            unflatten fuel (b.map fun e => (e.1.drop 1, e.2))))) := rfl

/-- `lpObj` as concatenated per-child blocks. -/
theorem lpObj_flatMap : ∀ kvs : List (PStr × J),
    lpObj kvs =
      (kvs.map fun kv => (leafPaths kv.2).map fun e => (kv.1 :: e.1, e.2)).flatMap id := by
  intro kvs
  induction kvs with
  | nil => rfl
  | cons kv0 rest ih =>
      obtain ⟨k0, v0⟩ := kv0
      rw [show lpObj ((k0, v0) :: rest) =
        (leafPaths v0).map (fun e => (k0 :: e.1, e.2)) ++ lpObj rest from rfl, ih,
        List.map_cons, List.flatMap_cons]
      rfl

/-- `lpArr` as concatenated per-element blocks. -/
theorem lpArr_flatMap : ∀ (items : List J) (i : Nat),
    lpArr items i = (blocksArr items i).flatMap id := by
  intro items
  induction items with
  | nil => intro i; rfl
  | cons x0 rest ih =>
      intro i
      rw [show lpArr (x0 :: rest) i =
        (leafPaths x0).map (fun e => (natChars i :: e.1, e.2)) ++ lpArr rest (i + 1) from rfl,
        ih (i + 1),
        show blocksArr (x0 :: rest) i =
          (leafPaths x0).map (fun e => (natChars i :: e.1, e.2)) ::
            blocksArr rest (i + 1) from rfl,
        List.flatMap_cons]
      rfl

/-- Mapping a reconstruction function over an object's blocks recovers
the key/value list. -/
theorem objBlocks_recover (g : List (List PStr × Prim) → J) :
    ∀ kvs : List (PStr × J),
      (∀ kv ∈ kvs, leafPaths kv.2 ≠ []) →
      (∀ kv ∈ kvs, g (leafPaths kv.2) = kv.2) →
      ((kvs.map fun kv => (leafPaths kv.2).map fun e => (kv.1 :: e.1, e.2)).map
        fun b => ((b.headD ([], Prim.null)).1.headD [],
          g (b.map fun e => (e.1.drop 1, e.2)))) = kvs := by
  intro kvs
  induction kvs with
  | nil => intro _ _; rfl
  | cons kv0 rest ih =>
      intro hne hg
      obtain ⟨k0, v0⟩ := kv0
      rw [List.map_cons, List.map_cons]
      have hvne : leafPaths v0 ≠ [] := hne (k0, v0) (by simp)
      obtain ⟨e0, es, h0⟩ := List.exists_cons_of_ne_nil hvne
      have hhead : (((leafPaths v0).map fun e => (k0 :: e.1, e.2)).headD
          ([], Prim.null)).1.headD [] = k0 := by
        rw [h0]
        rfl
      have htail : ((leafPaths v0).map fun e => (k0 :: e.1, e.2)).map
          (fun e => (e.1.drop 1, e.2)) = leafPaths v0 := by
        rw [List.map_map]
        have hid : ((fun e : List PStr × Prim => (e.1.drop 1, e.2)) ∘
            fun e : List PStr × Prim => (k0 :: e.1, e.2)) = id := by
          funext e
          rfl
        rw [hid, List.map_id]
      rw [hhead, htail, hg (k0, v0) (by simp)]
      rw [ih (fun kv h => hne kv (List.mem_cons_of_mem _ h))
        (fun kv h => hg kv (List.mem_cons_of_mem _ h))]

/-- Mapping a reconstruction function over an array's blocks recovers the
element list. -/
theorem arrBlocks_recover (g : List (List PStr × Prim) → J) :
    ∀ items : List J, ∀ i : Nat,
      (∀ x ∈ items, g (leafPaths x) = x) →
      ((blocksArr items i).map fun b => g (b.map fun e => (e.1.drop 1, e.2))) = items := by
  intro items
  induction items with
  | nil => intro i _; rfl
  | cons x0 rest ih =>
      intro i hg
      rw [show blocksArr (x0 :: rest) i =
        (leafPaths x0).map (fun e => (natChars i :: e.1, e.2)) ::
          blocksArr rest (i + 1) from rfl, List.map_cons]
      have htail : ((leafPaths x0).map fun e => (natChars i :: e.1, e.2)).map
          (fun e => (e.1.drop 1, e.2)) = leafPaths x0 := by
        rw [List.map_map]
        have hid : ((fun e : List PStr × Prim => (e.1.drop 1, e.2)) ∘
            fun e : List PStr × Prim => (natChars i :: e.1, e.2)) = id := by
          funext e
          rfl
        rw [hid, List.map_id]
      rw [htail, hg x0 (by simp),
        ih (i + 1) (fun x h => hg x (List.mem_cons_of_mem _ h))]

/-- Distinct sibling keys make the heads of adjacent object blocks
distinct. -/
theorem objBlocks_chain (kvs : List (PStr × J)) (hnd : (kvs.map (·.1)).Nodup) :
    (kvs.map fun kv => (leafPaths kv.2).map fun e => (kv.1 :: e.1, e.2)).Chain'
      (fun b1 b2 => ∀ x ∈ b1, ∀ y ∈ b2,
        (fun e : List PStr × Prim => e.1.headD ([] : PStr)) x ≠
          (fun e : List PStr × Prim => e.1.headD ([] : PStr)) y) := by
  apply List.Pairwise.chain'
  rw [List.pairwise_map]
  have hp : kvs.Pairwise (fun kv kv' => kv.1 ≠ kv'.1) := List.pairwise_map.mp hnd
  refine hp.imp ?_
  intro kv kv' hk x hx y hy
  obtain ⟨ex, _, hxe⟩ := List.mem_map.mp hx
  obtain ⟨ey, _, hye⟩ := List.mem_map.mp hy
  rw [← hxe, ← hye]
  simpa using hk

/-- Adjacent array blocks are headed by consecutive, hence distinct,
decimal indices. -/
theorem arrBlocks_chain : ∀ (items : List J) (i : Nat),
    (blocksArr items i).Chain'
      (fun b1 b2 => ∀ x ∈ b1, ∀ y ∈ b2,
        (fun e : List PStr × Prim => e.1.headD ([] : PStr)) x ≠
          (fun e : List PStr × Prim => e.1.headD ([] : PStr)) y) := by
  intro items
  induction items with
  | nil =>
      intro i
      rw [show blocksArr [] i = [] from rfl]
      exact List.chain'_nil
  | cons x0 rest ih =>
      intro i
      rw [show blocksArr (x0 :: rest) i =
        (leafPaths x0).map (fun e => (natChars i :: e.1, e.2)) ::
          blocksArr rest (i + 1) from rfl]
      rw [List.chain'_cons']
      refine ⟨?_, ih (i + 1)⟩
      intro b2 hb2 x hx y hy
      obtain ⟨ex, _, hxe⟩ := List.mem_map.mp hx
      rw [← hxe]
      cases rest with
      | nil => simp [show blocksArr [] (i + 1) = [] from rfl] at hb2
      | cons x1 rest' =>
          rw [show blocksArr (x1 :: rest') (i + 1) =
            (leafPaths x1).map (fun e => (natChars (i + 1) :: e.1, e.2)) ::
              blocksArr rest' (i + 2) from rfl] at hb2
          simp only [List.head?_cons, Option.mem_def, Option.some.injEq] at hb2
          rw [← hb2] at hy
          obtain ⟨ey, _, hye⟩ := List.mem_map.mp hy
          rw [← hye]
          intro hcon
          simp at hcon
          have := natChars_inj hcon
          omega

/-- Blocks of a renestable array are nonempty. -/
theorem blocksArr_ne_nil : ∀ (items : List J) (i : Nat), roArr items = true →
    ∀ b ∈ blocksArr items i, b ≠ [] := by
  intro items
  induction items with
  | nil => intro i _ b hb; simp [show blocksArr [] i = [] from rfl] at hb
  | cons x0 rest ih =>
      intro i hro b hb
      rw [show roArr (x0 :: rest) = (renestOk x0 && roArr rest) from rfl] at hro
      obtain ⟨h1, h2⟩ := bandElim hro
      rw [show blocksArr (x0 :: rest) i =
        (leafPaths x0).map (fun e => (natChars i :: e.1, e.2)) ::
          blocksArr rest (i + 1) from rfl] at hb
      rcases List.mem_cons.mp hb with h | h
      · rw [h]
        intro hcon
        rw [List.map_eq_nil_iff] at hcon
        exact leafPaths_nonempty x0 h1 hcon
      · exact ih (i + 1) h2 b h

/-- Within each array block all heads agree. -/
theorem blocksArr_const : ∀ (items : List J) (i : Nat),
    ∀ b ∈ blocksArr items i, ∀ x ∈ b, ∀ y ∈ b,
      x.1.headD ([] : PStr) = y.1.headD ([] : PStr) := by
  intro items
  induction items with
  | nil => intro i b hb; simp [show blocksArr [] i = [] from rfl] at hb
  | cons x0 rest ih =>
      intro i b hb x hx y hy
      rw [show blocksArr (x0 :: rest) i =
        (leafPaths x0).map (fun e => (natChars i :: e.1, e.2)) ::
          blocksArr rest (i + 1) from rfl] at hb
      rcases List.mem_cons.mp hb with h | h
      · rw [h] at hx hy
        obtain ⟨ex, _, hxe⟩ := List.mem_map.mp hx
        obtain ⟨ey, _, hye⟩ := List.mem_map.mp hy
        rw [← hxe, ← hye]
        rfl
      · exact ih (i + 1) b h x hx y hy

/-- Re-nesting by leading path segments inverts leaf-path extraction on
trees with duplicate-free separator-free keys whose objects and arrays
are nonempty and whose keys are never all-digit, given enough fuel. -/
theorem unflatten_master : ∀ fuel : Nat, ∀ j : J, depthJ j ≤ fuel →
    goodKeys j = true → renestOk j = true →
    unflatten fuel (leafPaths j) = j := by
  intro fuel
  induction fuel with
  | zero =>
      intro j hd _ _
      cases j with
      | leaf p => rfl
      | obj kvs =>
          rw [show depthJ (J.obj kvs) = 1 + dObj kvs from rfl] at hd
          omega
      | arr items =>
          rw [show depthJ (J.arr items) = 1 + dArr items from rfl] at hd
          omega
  | succ fuel ih =>
      intro j hd hg hr
      cases j with
      | leaf p => rfl
      | obj kvs =>
          cases kvs with
          | nil =>
              rw [show renestOk (J.obj []) =
                (!(List.isEmpty ([] : List (PStr × J))) && roObj []) from rfl] at hr
              simp at hr
          | cons kv0 rest =>
              obtain ⟨k0, v0⟩ := kv0
              rw [show goodKeys (J.obj ((k0, v0) :: rest)) =
                (decide ((((k0, v0) :: rest).map (·.1)).Nodup) &&
                  gkObj ((k0, v0) :: rest)) from rfl] at hg
              obtain ⟨hndb, hgo⟩ := bandElim hg
              have hnd : (((k0, v0) :: rest).map (·.1)).Nodup := of_decide_eq_true hndb
              rw [show renestOk (J.obj ((k0, v0) :: rest)) =
                (!(List.isEmpty ((k0, v0) :: rest)) &&
                  roObj ((k0, v0) :: rest)) from rfl] at hr
              have hro := (bandElim hr).2
              rw [show depthJ (J.obj ((k0, v0) :: rest)) =
                1 + dObj ((k0, v0) :: rest) from rfl] at hd
              have hdk : dObj ((k0, v0) :: rest) ≤ fuel := by omega
              have hneper : ∀ kv ∈ (k0, v0) :: rest, leafPaths kv.2 ≠ [] :=
                fun kv h => leafPaths_nonempty kv.2 (roObj_mem _ hro kv h).2
              have hgper : ∀ kv ∈ (k0, v0) :: rest,
                  unflatten fuel (leafPaths kv.2) = kv.2 :=
                fun kv h => ih kv.2 (le_trans (dObj_mem _ kv h) hdk)
                  (gkObj_mem _ hgo kv h).2 (roObj_mem _ hro kv h).2
              have hblocks_ne : ∀ b ∈ ((k0, v0) :: rest).map
                  (fun kv => (leafPaths kv.2).map fun e => (kv.1 :: e.1, e.2)),
                  b ≠ [] := by
                intro b hb
                obtain ⟨kv, hkv, hbe⟩ := List.mem_map.mp hb
                rw [← hbe]
                intro hcon
                rw [List.map_eq_nil_iff] at hcon
                exact hneper kv hkv hcon
              have hblocks_const : ∀ b ∈ ((k0, v0) :: rest).map
                  (fun kv => (leafPaths kv.2).map fun e => (kv.1 :: e.1, e.2)),
                  ∀ x ∈ b, ∀ y ∈ b,
                    (fun e : List PStr × Prim => e.1.headD ([] : PStr)) x =
                      (fun e : List PStr × Prim => e.1.headD ([] : PStr)) y := by
                intro b hb x hx y hy
                obtain ⟨kv, hkv, hbe⟩ := List.mem_map.mp hb
                rw [← hbe] at hx hy
                obtain ⟨ex, _, hxe⟩ := List.mem_map.mp hx
                obtain ⟨ey, _, hye⟩ := List.mem_map.mp hy
                rw [← hxe, ← hye]
                rfl
              have hchunk : chunkBy (fun e : List PStr × Prim => e.1.headD ([] : PStr))
                  (lpObj ((k0, v0) :: rest)) =
                  ((k0, v0) :: rest).map
                    (fun kv => (leafPaths kv.2).map fun e => (kv.1 :: e.1, e.2)) := by
                rw [lpObj_flatMap]
                exact chunkBy_flatten _ _ hblocks_ne hblocks_const
                  (objBlocks_chain _ hnd)
              have hvne : leafPaths v0 ≠ [] := hneper (k0, v0) (by simp)
              obtain ⟨e0, es0, h0⟩ := List.exists_cons_of_ne_nil hvne
              have hsh : lpObj ((k0, v0) :: rest) =
                  (k0 :: e0.1, e0.2) ::
                    (es0.map (fun e => (k0 :: e.1, e.2)) ++ lpObj rest) := by
                rw [show lpObj ((k0, v0) :: rest) =
                  (leafPaths v0).map (fun e => (k0 :: e.1, e.2)) ++ lpObj rest from rfl,
                  h0, List.map_cons, List.cons_append]
              have hkd : k0.any (fun c => !c.isDigit) = true :=
                (roObj_mem _ hro (k0, v0) (by simp)).1
              have hcondF : ¬ (k0 ≠ [] ∧ k0.all (·.isDigit) = true) := by
                rintro ⟨-, hall⟩
                obtain ⟨c, hc, hcd⟩ := List.any_eq_true.mp hkd
                have hct := List.all_eq_true.mp hall c hc
                simp [hct] at hcd
              show unflatten (fuel + 1) (lpObj ((k0, v0) :: rest)) =
                J.obj ((k0, v0) :: rest)
              rw [hsh, unflatten_cons_cons, if_neg hcondF, ← hsh, hchunk]
              rw [objBlocks_recover (unflatten fuel) ((k0, v0) :: rest) hneper hgper]
      | arr items =>
          cases items with
          | nil =>
              rw [show renestOk (J.arr []) =
                (!(List.isEmpty ([] : List J)) && roArr []) from rfl] at hr
              simp at hr
          | cons x0 rest =>
              rw [show goodKeys (J.arr (x0 :: rest)) = gkArr (x0 :: rest) from rfl] at hg
              rw [show renestOk (J.arr (x0 :: rest)) =
                (!(List.isEmpty (x0 :: rest)) && roArr (x0 :: rest)) from rfl] at hr
              have hro := (bandElim hr).2
              rw [show depthJ (J.arr (x0 :: rest)) =
                1 + dArr (x0 :: rest) from rfl] at hd
              have hdk : dArr (x0 :: rest) ≤ fuel := by omega
              have hgper : ∀ x ∈ x0 :: rest, unflatten fuel (leafPaths x) = x :=
                fun x h => ih x (le_trans (dArr_mem _ x h) hdk)
                  (gkArr_mem _ hg x h) (roArr_mem _ hro x h)
              have hblocks_const : ∀ b ∈ blocksArr (x0 :: rest) 0, ∀ x ∈ b, ∀ y ∈ b,
                  (fun e : List PStr × Prim => e.1.headD ([] : PStr)) x =
                    (fun e : List PStr × Prim => e.1.headD ([] : PStr)) y :=
                fun b hb x hx y hy => blocksArr_const (x0 :: rest) 0 b hb x hx y hy
              have hchunk : chunkBy (fun e : List PStr × Prim => e.1.headD ([] : PStr))
                  (lpArr (x0 :: rest) 0) = blocksArr (x0 :: rest) 0 := by
                rw [lpArr_flatMap]
                exact chunkBy_flatten _ _ (blocksArr_ne_nil _ 0 hro) hblocks_const
                  (arrBlocks_chain _ 0)
              have hvne : leafPaths x0 ≠ [] :=
                leafPaths_nonempty x0 (roArr_mem _ hro x0 (by simp))
              obtain ⟨e0, es0, h0⟩ := List.exists_cons_of_ne_nil hvne
              have hsh : lpArr (x0 :: rest) 0 =
                  (natChars 0 :: e0.1, e0.2) ::
                    (es0.map (fun e => (natChars 0 :: e.1, e.2)) ++ lpArr rest 1) := by
                rw [show lpArr (x0 :: rest) 0 =
                  (leafPaths x0).map (fun e => (natChars 0 :: e.1, e.2)) ++
                    lpArr rest 1 from rfl, h0, List.map_cons, List.cons_append]
              have hcondT : natChars 0 ≠ [] ∧ (natChars 0).all (·.isDigit) = true :=
                ⟨(natChars_spec 0).1, List.all_eq_true.mpr (natChars_spec 0).2⟩
              show unflatten (fuel + 1) (lpArr (x0 :: rest) 0) = J.arr (x0 :: rest)
              rw [hsh, unflatten_cons_cons, if_pos hcondT, ← hsh, hchunk]
              rw [arrBlocks_recover (unflatten fuel) (x0 :: rest) 0 hgper]

/-- C4 counterexample: the round-trip law fails as stated.  The trees
obj {"a-b": 1} and obj {"a": {"b": 1}} (both of depth at most 6) are
distinct yet flatten to the same record, so no re-nesting can restore
both; concretely, re-nesting the flat record of the first tree yields the
second, not the first. -/
theorem C4_counterexample :
    denestTop (J.obj [("a-b".toList, J.leaf (Prim.i 1))]) =
        denestTop (J.obj [("a".toList, J.obj [("b".toList, J.leaf (Prim.i 1))])]) ∧
      J.obj [("a-b".toList, J.leaf (Prim.i 1))] ≠
        J.obj [("a".toList, J.obj [("b".toList, J.leaf (Prim.i 1))])] ∧
      depthJ (J.obj [("a-b".toList, J.leaf (Prim.i 1))]) ≤ 6 ∧
      depthJ (J.obj [("a".toList, J.obj [("b".toList, J.leaf (Prim.i 1))])]) ≤ 6 ∧
      renest (denestTop (J.obj [("a-b".toList, J.leaf (Prim.i 1))])) ≠
        J.obj [("a-b".toList, J.leaf (Prim.i 1))] := by
  refine ⟨rfl, ?_, by decide, by decide, ?_⟩
  · intro h
    simp at h
  · intro h
    have h2 : J.obj [("a".toList, J.obj [("b".toList, J.leaf (Prim.i 1))])] =
        J.obj [("a-b".toList, J.leaf (Prim.i 1))] := h
    simp at h2

/-- C4 (amended): for every JSON tree of depth at most 6 whose object
keys are duplicate-free among siblings, contain no '-' separator and at
least one non-digit character, whose objects and arrays are nonempty, and
whose root is not a bare scalar, flattening with `dict_denester` and then
re-nesting the flat entries along their recorded paths reconstructs the
original tree. -/
theorem C4_round_trip (j : J) (hg : goodKeys j = true) (hr : renestOk j = true)
    (hc : ∀ p, j ≠ J.leaf p) (hd : depthJ j ≤ 6) :
    renest (denestTop j) = j := by
  have hne : ∀ e ∈ leafPaths j, e.1 ≠ [] := by
    cases j with
    | leaf p => exact absurd rfl (hc p)
    | obj kvs => exact lpObj_paths_ne_nil kvs
    | arr items => exact lpArr_paths_ne_nil items 0
  rw [show renest (denestTop j) =
    unflatten 6 ((denestTop j).map fun e => (splitDash e.1, e.2)) from rfl]
  rw [denestTop_split j hg hne]
  exact unflatten_master 6 j hd hg hr

/-- Witness: a two-key object holding an array with a nested object
round-trips through flattening and re-nesting. -/
theorem C4_witness :
    goodKeys (J.obj [("a".toList, J.arr [J.leaf (Prim.i 1),
        J.obj [("x".toList, J.leaf Prim.null)]]),
      ("b".toList, J.leaf (Prim.b true))]) = true ∧
    renestOk (J.obj [("a".toList, J.arr [J.leaf (Prim.i 1),
        J.obj [("x".toList, J.leaf Prim.null)]]),
      ("b".toList, J.leaf (Prim.b true))]) = true ∧
    (∀ p, J.obj [("a".toList, J.arr [J.leaf (Prim.i 1),
        J.obj [("x".toList, J.leaf Prim.null)]]),
      ("b".toList, J.leaf (Prim.b true))] ≠ J.leaf p) ∧
    depthJ (J.obj [("a".toList, J.arr [J.leaf (Prim.i 1),
        J.obj [("x".toList, J.leaf Prim.null)]]),
      ("b".toList, J.leaf (Prim.b true))]) ≤ 6 ∧
    renest (denestTop (J.obj [("a".toList, J.arr [J.leaf (Prim.i 1),
        J.obj [("x".toList, J.leaf Prim.null)]]),
      ("b".toList, J.leaf (Prim.b true))])) =
      J.obj [("a".toList, J.arr [J.leaf (Prim.i 1),
        J.obj [("x".toList, J.leaf Prim.null)]]),
      ("b".toList, J.leaf (Prim.b true))] :=
  ⟨by decide, by decide, fun p h => J.noConfusion h, by decide,
    C4_round_trip _ (by decide) (by decide) (fun p h => J.noConfusion h) (by decide)⟩
